import Mathlib

/- A shallow embedding of the composite-text-density content extractor
   from src/cetd/extractor.py.

   The DOM tree handed over by the external document-tree provider is a
   mutual inductive: elements carry a provider-assigned numeric id, a tag
   name, their real HTML attributes and an ordered forest of children;
   navigable strings carry an id and their raw text.  The per-node scratch
   attribute store that the algorithm writes (char-number, tag-number,
   linkchar-number, linktag-number, text-density, density-sum,
   max-density-sum, mark) is modelled as a separate state St keyed by node
   id, with a write log recording every store in order.

   Numeric conventions: CPython integers are Int; IEEE doubles are
   modelled by exact rationals (all claims settled here are about control
   flow, comparisons and exact small values, not rounding), except for the
   Standard text-density formula, which uses natural logarithms and is
   modelled over the reals.  A Python exception (KeyError on a missing
   attribute, TypeError on subscripting None or a string, ZeroDivisionError,
   ValueError from str.index or math.log) is an error of the Except monad.

   Provider operations (parsing, attribute lookup, find_next document-order
   scans, stripped_strings) are modelled from the spec's provider contract
   in sections 2, 4.5 and 6: attribute values are compared by value (the
   spec describes search_tag as locating a node whose stored value equals
   the searched value, string-compared; on the rational model the canonical
   string form is injective, so value equality is the faithful rendering). -/

/-- The eight scratch attribute keys the algorithm writes. -/
inductive AKey where
  | charNum | tagNum | linkcharNum | linktagNum
  | textDensity | densitySum | maxDensitySum | mark
deriving DecidableEq, Repr

/-- Python exceptions that the extractor code can raise, by site. -/
inductive Err where
  /-- KeyError: a scratch attribute was read before being written. -/
  | keyError
  /-- TypeError: subscripting None (search_tag returned no node). -/
  | typeErrorNone
  /-- TypeError: subscripting a NavigableString with a string key. -/
  | typeErrorString
  /-- AttributeError: calling a method on None (create_doc returned no body),
      or walking parent links past the document object. -/
  | attributeErrorNone
  /-- ZeroDivisionError: ratio = linkchar-number / char-number with zero chars. -/
  | zeroDivisionError
  /-- ValueError: str.index found no occurrence, or math.log got a
      non-positive argument. -/
  | valueError
  /-- Internal to the model only: a node id could not be resolved in the
      tree (cannot happen for ids produced by the model's own searches). -/
  | lookupFailed
  /-- Internal to the model only: recursion fuel ran out. -/
  | fuelOut
deriving DecidableEq, Repr

/-- Scratch attribute store, keyed by node id, plus a write log.
    Counts are Python ints; densities are rationals standing for doubles. -/
structure St where
  charNum : Nat → Option Int
  tagNum : Nat → Option Int
  linkcharNum : Nat → Option Int
  linktagNum : Nat → Option Int
  textDensity : Nat → Option ℚ
  densitySum : Nat → Option ℚ
  maxDensitySum : Nat → Option ℚ
  mark : Nat → Option Int
  log : List (Nat × AKey)

/-- The state before any pass has run: no attribute is set anywhere. -/
def St.empty : St :=
  { charNum := fun _ => none, tagNum := fun _ => none,
    linkcharNum := fun _ => none, linktagNum := fun _ => none,
    textDensity := fun _ => none, densitySum := fun _ => none,
    maxDensitySum := fun _ => none, mark := fun _ => none, log := [] }

def St.setCharNum (st : St) (i : Nat) (v : Int) : St :=
  { st with charNum := fun j => if j = i then some v else st.charNum j,
            log := st.log ++ [(i, AKey.charNum)] }

def St.setTagNum (st : St) (i : Nat) (v : Int) : St :=
  { st with tagNum := fun j => if j = i then some v else st.tagNum j,
            log := st.log ++ [(i, AKey.tagNum)] }

def St.setLinkcharNum (st : St) (i : Nat) (v : Int) : St :=
  { st with linkcharNum := fun j => if j = i then some v else st.linkcharNum j,
            log := st.log ++ [(i, AKey.linkcharNum)] }

def St.setLinktagNum (st : St) (i : Nat) (v : Int) : St :=
  { st with linktagNum := fun j => if j = i then some v else st.linktagNum j,
            log := st.log ++ [(i, AKey.linktagNum)] }

def St.setTextDensity (st : St) (i : Nat) (v : ℚ) : St :=
  { st with textDensity := fun j => if j = i then some v else st.textDensity j,
            log := st.log ++ [(i, AKey.textDensity)] }

def St.setDensitySum (st : St) (i : Nat) (v : ℚ) : St :=
  { st with densitySum := fun j => if j = i then some v else st.densitySum j,
            log := st.log ++ [(i, AKey.densitySum)] }

def St.setMaxDensitySum (st : St) (i : Nat) (v : ℚ) : St :=
  { st with maxDensitySum := fun j => if j = i then some v else st.maxDensitySum j,
            log := st.log ++ [(i, AKey.maxDensitySum)] }

def St.setMark (st : St) (i : Nat) (v : Int) : St :=
  { st with mark := fun j => if j = i then some v else st.mark j,
            log := st.log ++ [(i, AKey.mark)] }

/-- Reading a scratch attribute: tag[key] raises KeyError when unset. -/
def getAttr {α : Type} (o : Option α) : Except Err α :=
  match o with
  | some v => Except.ok v
  | none => Except.error Err.keyError

/-- Resolving a node id inside the model (the Python code holds the node
    object itself; the model looks it up by id, which cannot fail for ids
    the model produced). -/
def getNode {α : Type} (o : Option α) : Except Err α :=
  match o with
  | some v => Except.ok v
  | none => Except.error Err.lookupFailed

mutual
/-- A provider document-tree node: an element (bs4 Tag) with id, tag name,
    real HTML attributes and ordered children, or a navigable string. -/
inductive NTree where
  | elem (id : Nat) (name : String) (hattrs : List (String × String)) (children : NForest)
  | text (id : Nat) (content : String)
/-- An ordered forest of sibling nodes. -/
inductive NForest where
  | nil
  | cons (t : NTree) (ts : NForest)
end

def NForest.isNilb : NForest → Bool
  | .nil => true
  | .cons _ _ => false

def NTree.idOf : NTree → Nat
  | .elem i _ _ _ => i
  | .text i _ => i

def NTree.isElem : NTree → Bool
  | .elem _ _ _ _ => true
  | .text _ _ => false

mutual
def all_ids : NTree → List Nat
  | .elem i _ _ cs => i :: all_ids_forest cs
  | .text i _ => [i]
def all_ids_forest : NForest → List Nat
  | .nil => []
  | .cons t ts => all_ids t ++ all_ids_forest ts
end

mutual
def elem_ids : NTree → List Nat
  | .elem i _ _ cs => i :: elem_ids_forest cs
  | .text _ _ => []
def elem_ids_forest : NForest → List Nat
  | .nil => []
  | .cons t ts => elem_ids t ++ elem_ids_forest ts
end

mutual
/-- Number of element nodes strictly inside a subtree (descendant tags). -/
def desc_elem_count : NTree → Nat
  | .elem _ _ _ cs => elem_count_forest cs
  | .text _ _ => 0
def elem_count_forest : NForest → Nat
  | .nil => 0
  | .cons (.elem _ _ _ cs) ts => 1 + elem_count_forest cs + elem_count_forest ts
  | .cons (.text _ _) ts => elem_count_forest ts
end

/-- ASCII lowercasing of a character, kernel-computable (tag names are
    ASCII; models Python str.lower on them). -/
def lower_char (c : Char) : Char :=
  if (('A') ≤ c && c ≤ ('Z') : Bool) then Char.ofNat (c.toNat + 32) else c

/-- Python str.lower over the character list. -/
def lower_str (s : String) : String := String.mk (s.data.map lower_char)

/-- Python str.strip's whitespace class. -/
def is_ws (c : Char) : Bool :=
  c == (' ') || c == ('\t') || c == ('\n') || c == ('\r') || c == ('\x0b') || c == ('\x0c')

/-- Python str.strip over the character list. -/
def trim_str (s : String) : String :=
  String.mk (((s.data.dropWhile is_ws).reverse.dropWhile is_ws).reverse)

mutual
/-- The provider's stripped_strings: every descendant navigable string,
    in document order, stripped, empties skipped (spec section 3:
    text content is the whitespace-normalized stripped concatenation). -/
def strippedT : NTree → List String
  | .text _ s => if trim_str s = ("") then [] else [trim_str s]
  | .elem _ _ _ cs => strippedF cs
def strippedF : NForest → List String
  | .nil => []
  | .cons t ts => strippedT t ++ strippedF ts
end

/-- Length of a single-space join of the given strings:
    len of join(l) with one separator between consecutive entries. -/
def joinLen : List String → Nat
  | [] => 0
  | a :: as => ((a :: as).map String.length).sum + ((a :: as).length - 1)

/-- Tag names the extractor treats as link noise: the configured default
    ignorable set LINK_TAGS plus JS_TAGS. -/
def ignorable_names : List String :=
  [("a"), ("button"), ("select"), ("script"), ("style")]

/-- is_ignorable from the source: tag.name.lower() in ignorables
    (every extractor in the file uses the default set). -/
def is_ignorable (nm : String) : Bool :=
  ignorable_names.contains (lower_str nm)

mutual
/-- Document-order (preorder) traversal: each node's id paired with
    whether it is an element. -/
def preorderNodes : NTree → List (Nat × Bool)
  | .elem i _ _ cs => (i, true) :: preorderNodesF cs
  | .text i _ => [(i, false)]
def preorderNodesF : NForest → List (Nat × Bool)
  | .nil => []
  | .cons t ts => preorderNodes t ++ preorderNodesF ts
end

mutual
/-- Tag name of the element with the given id, if present. -/
def name_of : NTree → Nat → Option String
  | .elem i nm _ cs, j => if i = j then some nm else name_of_forest cs j
  | .text _ _, _ => none
def name_of_forest : NForest → Nat → Option String
  | .nil, _ => none
  | .cons t ts, j =>
    match name_of t j with
    | some nm => some nm
    | none => name_of_forest ts j
end

mutual
/-- The subtree rooted at the node with the given id (first occurrence). -/
def subtree_of : NTree → Nat → Option NTree
  | .elem i nm a cs, j => if i = j then some (.elem i nm a cs) else subtree_of_forest cs j
  | .text i s, j => if i = j then some (.text i s) else none
def subtree_of_forest : NForest → Nat → Option NTree
  | .nil, _ => none
  | .cons t ts, j =>
    match subtree_of t j with
    | some s => some s
    | none => subtree_of_forest ts j
end

mutual
/-- Ids of the strict ancestors of the node with the given id, bottom-up
    (immediate parent first, document root last).  This is the parent
    chain the Python code walks through .parent links. -/
def anc_ids : NTree → Nat → Option (List Nat)
  | .elem i _ _ cs, j =>
    if i = j then some [] else (anc_ids_forest cs j).map (fun l => l ++ [i])
  | .text i _, j => if i = j then some [] else none
def anc_ids_forest : NForest → Nat → Option (List Nat)
  | .nil, _ => none
  | .cons t ts, j =>
    match anc_ids t j with
    | some l => some l
    | none => anc_ids_forest ts j
end

def NTree.rootId : NTree → Nat
  | .elem i _ _ _ => i
  | .text i _ => i

/-- EDGAR string narrowing (EDGARExtractor.create_doc).
    str_index models Python str.index via the character list: the least
    position where the needle occurs. -/
def str_index_aux (hay needle : List Char) (i : Nat) : Option Nat :=
  match hay with
  | [] => if needle = [] then some i else none
  | _ :: rest =>
    if needle.isPrefixOf hay then some i else str_index_aux rest needle (i + 1)

def str_index (s sub : String) : Option Nat :=
  str_index_aux s.data sub.data 0

/-- EDGARExtractor.create_doc, up to the provider parse: locate the first
    literal occurrences of the html delimiters and slice the input.
    start = html.index of the open tag; end = html.index of the close tag
    plus 6 (len of the close tag text without its final bracket); the
    slice html[start:end+1] is handed to the parser.  str.index raises
    ValueError when the needle does not occur. -/
def edgar_narrow (html : String) : Except Err String :=
  match str_index html ("<html>") with
  | none => Except.error Err.valueError
  | some start =>
    match str_index html ("</html>") with
    | none => Except.error Err.valueError
    | some j =>
      Except.ok (String.mk (((html.data).drop start).take (j + 6 + 1 - start)))

/-- EDGARExtractor.extract_content: create_doc runs first; everything after
    (parsing, the counting passes, density-sum pruning, serialization) is
    the abstract rest of the pipeline, which only runs if narrowing
    succeeded. -/
def edgar_extract_with (rest : String → Except Err String) (html : String) :
    Except Err String :=
  edgar_narrow html >>= rest

/-- The guarded natural logarithm: CPython math.log raises ValueError on a
    non-positive argument. -/
noncomputable def ln_checked (x : ℝ) : Except Err ℝ :=
  if 0 < x then Except.ok (Real.log x) else Except.error Err.valueError

/-- Extractor.compute_text_density, the per-node Standard density formula
    (the surrounding recursion applies it to every element).  Inputs are
    the four count attributes of the node and the document ratio; clamps
    replace a value that is exactly 0 by 1; un_linkchar_num can be negative
    and is then not clamped.  The logs are evaluated in Python's order:
    the numerator log first, then the inner, then the outer log of the
    denominator.  The result is floored at 0. -/
noncomputable def compute_text_density (char_num tag_num linkchar_num linktag_num : Int)
    (r : ℝ) : Except Err ℝ :=
  if char_num = 0 then Except.ok 0
  else
    let un_linkchar_num : Int := char_num - linkchar_num
    let tag_num := if tag_num = 0 then 1 else tag_num
    let linkchar_num := if linkchar_num = 0 then 1 else linkchar_num
    let linktag_num := if linktag_num = 0 then 1 else linktag_num
    let un_linkchar_num := if un_linkchar_num = 0 then 1 else un_linkchar_num
    ln_checked (((char_num : ℝ) * (tag_num : ℝ)) / ((linkchar_num : ℝ) * (linktag_num : ℝ)))
      >>= fun l1 =>
    ln_checked ((char_num : ℝ) * (linkchar_num : ℝ) / (un_linkchar_num : ℝ)
        + r * (char_num : ℝ) + Real.exp 1) >>= fun l2 =>
    ln_checked l2 >>= fun l3 =>
    Except.ok (max ((char_num : ℝ) / (tag_num : ℝ) * l1 / l3) 0)

/-- VariantExtractor.compute_text_density, the per-node Simplified density:
    char-number over tag-number (tag-number clamped to 1), 0 when there are
    no characters.  No logarithms, so rationals model the doubles. -/
def compute_text_density_var (char_num tag_num : Int) : ℚ :=
  if char_num ≠ 0 then
    (char_num : ℚ) / ((if tag_num = 0 then 1 else tag_num : Int) : ℚ)
  else 0

mutual
/-- Extractor.count_chars (Standard): set char-number to the length of the
    single-space join of all stripped descendant strings, then recurse into
    every child (navigable strings are skipped by the isinstance guard). -/
def count_chars : NTree → St → St
  | .text _ _, st => st
  | .elem i _ _ cs, st => count_chars_forest cs (st.setCharNum i (joinLen (strippedF cs)))
def count_chars_forest : NForest → St → St
  | .nil, st => st
  | .cons t ts, st => count_chars_forest ts (count_chars t st)
end

/-- Second loop of count_tags: sum tag-number over the element children. -/
def tag_sum : NForest → St → Except Err Int
  | .nil, _ => Except.ok 0
  | .cons (.text _ _) ts, st => tag_sum ts st
  | .cons (.elem j _ _ _) ts, st =>
    getAttr (st.tagNum j) >>= fun v =>
    tag_sum ts st >>= fun s =>
    Except.ok (v + s)

mutual
/-- AbstractExtractor.count_tags.  The Bool argument says whether any node
    follows this one's subtree in document order; next_element is None
    exactly when the node has no children and nothing follows, and in that
    case the loops are skipped and tag-number is set to 0.  The summing
    loop adds each element child's tag-number (and nothing else). -/
def count_tags : NTree → Bool → St → Except Err St
  | .text _ _, _, st => Except.ok st
  | .elem i _ _ cs, hasFollowing, st =>
    if cs.isNilb && !hasFollowing then Except.ok (st.setTagNum i 0)
    else
      count_tags_forest cs hasFollowing st >>= fun st =>
      tag_sum cs st >>= fun s =>
      Except.ok (st.setTagNum i s)
def count_tags_forest : NForest → Bool → St → Except Err St
  | .nil, _, st => Except.ok st
  | .cons (.text _ _) ts, pf, st => count_tags_forest ts pf st
  | .cons (.elem j nm a cs) ts, pf, st =>
    count_tags (.elem j nm a cs) (!ts.isNilb || pf) st >>= fun st =>
    count_tags_forest ts pf st
end

mutual
/-- Extractor.update_link_chars (Standard): for every element child, set
    its linkchar-number to its char-number, then recurse into it. -/
def update_link_chars : NTree → St → Except Err St
  | .text _ _, st => Except.ok st
  | .elem _ _ _ cs, st => update_link_chars_forest cs st
def update_link_chars_forest : NForest → St → Except Err St
  | .nil, st => Except.ok st
  | .cons (.text _ _) ts, st => update_link_chars_forest ts st
  | .cons (.elem j nm a cs) ts, st =>
    getAttr (st.charNum j) >>= fun c =>
    update_link_chars (.elem j nm a cs) (st.setLinkcharNum j c) >>= fun st =>
    update_link_chars_forest ts st
end

mutual
/-- VariantExtractor.update_link_chars: for every element child, set its
    char-number to 0, then recurse into it. -/
def update_link_chars_var : NTree → St → Except Err St
  | .text _ _, st => Except.ok st
  | .elem _ _ _ cs, st => update_link_chars_var_forest cs st
def update_link_chars_var_forest : NForest → St → Except Err St
  | .nil, st => Except.ok st
  | .cons (.text _ _) ts, st => update_link_chars_var_forest ts st
  | .cons (.elem j nm a cs) ts, st =>
    update_link_chars_var (.elem j nm a cs) (st.setCharNum j 0) >>= fun st =>
    update_link_chars_var_forest ts st
end

/-- Second loop of count_link_chars: sum linkchar-number over element
    children. -/
def linkchar_sum : NForest → St → Except Err Int
  | .nil, _ => Except.ok 0
  | .cons (.text _ _) ts, st => linkchar_sum ts st
  | .cons (.elem j _ _ _) ts, st =>
    getAttr (st.linkcharNum j) >>= fun v =>
    linkchar_sum ts st >>= fun s =>
    Except.ok (v + s)

mutual
/-- AbstractExtractor.count_link_chars, parameterized by the strategy's
    update_link_chars (upd).  Children are recursed first; an ignorable
    node takes its own char-number and force-updates its descendants via
    upd; otherwise the element children's linkchar-numbers are summed. -/
def count_link_chars (upd : NTree → St → Except Err St) : NTree → St → Except Err St
  | .text _ _, st => Except.ok st
  | .elem i nm a cs, st =>
    count_link_chars_forest upd cs st >>= fun st =>
    if is_ignorable nm then
      getAttr (st.charNum i) >>= fun c =>
      upd (.elem i nm a cs) st >>= fun st =>
      Except.ok (st.setLinkcharNum i c)
    else
      linkchar_sum cs st >>= fun s =>
      Except.ok (st.setLinkcharNum i s)
def count_link_chars_forest (upd : NTree → St → Except Err St) : NForest → St → Except Err St
  | .nil, st => Except.ok st
  | .cons (.text _ _) ts, st => count_link_chars_forest upd ts st
  | .cons (.elem j nm a cs) ts, st =>
    count_link_chars upd (.elem j nm a cs) st >>= fun st =>
    count_link_chars_forest upd ts st
end

/-- Second loop of count_link_tags: sum linktag-number over element
    children, adding 1 for an ignorable child, or for a fully-link child
    (linktag = tag, char = linkchar, linktag nonzero). -/
def linktag_sum : NForest → St → Except Err Int
  | .nil, _ => Except.ok 0
  | .cons (.text _ _) ts, st => linktag_sum ts st
  | .cons (.elem j nm _ _) ts, st =>
    getAttr (st.linktagNum j) >>= fun clt =>
    (if is_ignorable nm then Except.ok (clt + 1)
     else
       getAttr (st.linktagNum j) >>= fun clt2 =>
       getAttr (st.tagNum j) >>= fun ct =>
       getAttr (st.charNum j) >>= fun cc =>
       getAttr (st.linkcharNum j) >>= fun clc =>
       Except.ok (if clt2 = ct ∧ cc = clc ∧ clt2 ≠ 0 then clt + 1 else clt)) >>= fun acc =>
    linktag_sum ts st >>= fun s =>
    Except.ok (acc + s)

mutual
/-- AbstractExtractor.count_link_tags, parameterized by the strategy's
    update_link_chars (upd), which it also calls on ignorable nodes. -/
def count_link_tags (upd : NTree → St → Except Err St) : NTree → St → Except Err St
  | .text _ _, st => Except.ok st
  | .elem i nm a cs, st =>
    count_link_tags_forest upd cs st >>= fun st =>
    if is_ignorable nm then
      getAttr (st.tagNum i) >>= fun t =>
      upd (.elem i nm a cs) st >>= fun st =>
      Except.ok (st.setLinktagNum i t)
    else
      linktag_sum cs st >>= fun s =>
      Except.ok (st.setLinktagNum i s)
def count_link_tags_forest (upd : NTree → St → Except Err St) : NForest → St → Except Err St
  | .nil, st => Except.ok st
  | .cons (.text _ _) ts, st => count_link_tags_forest upd ts st
  | .cons (.elem j nm a cs) ts, st =>
    count_link_tags upd (.elem j nm a cs) st >>= fun st =>
    count_link_tags_forest upd ts st
end

/-- Reading loop of VariantExtractor.count_chars: sum the element
    children's char-numbers, and subtract each element child's stripped
    text length from the running plain-text length. -/
def char_sum_sub : NForest → St → Int → Except Err (Int × Int)
  | .nil, _, plain => Except.ok (0, plain)
  | .cons (.text _ _) ts, st, plain => char_sum_sub ts st plain
  | .cons (.elem j nm a cs) ts, st, plain =>
    getAttr (st.charNum j) >>= fun c =>
    char_sum_sub ts st (plain - (joinLen (strippedT (.elem j nm a cs)) : Int)) >>= fun p =>
    Except.ok (c + p.1, p.2)

mutual
/-- VariantExtractor.count_chars (Simplified): an ignorable element is set
    to 0 without visiting its children; otherwise element children are
    recursed, their char-numbers summed, each child's stripped text length
    subtracted from this node's own stripped text length, and the node's
    char-number set to the children's sum plus the remaining length. -/
def count_chars_var : NTree → St → Except Err St
  | .text _ _, st => Except.ok st
  | .elem i nm a cs, st =>
    let plain0 : Int := (joinLen (strippedT (.elem i nm a cs)) : Int)
    if is_ignorable nm then Except.ok (st.setCharNum i 0)
    else
      count_chars_var_forest cs st >>= fun st =>
      char_sum_sub cs st plain0 >>= fun p =>
      Except.ok (st.setCharNum i (p.1 + p.2))
def count_chars_var_forest : NForest → St → Except Err St
  | .nil, st => Except.ok st
  | .cons (.text _ _) ts, st => count_chars_var_forest ts st
  | .cons (.elem j nm a cs) ts, st =>
    count_chars_var (.elem j nm a cs) st >>= fun st =>
    count_chars_var_forest ts st
end

/-- Reading loop of VariantExtractor.compute_density_sum: sum the element
    children's text-densities and char-numbers. -/
def td_char_sums : NForest → St → Except Err (ℚ × ℚ)
  | .nil, _ => Except.ok (0, 0)
  | .cons (.text _ _) ts, st => td_char_sums ts st
  | .cons (.elem j _ _ _) ts, st =>
    getAttr (st.textDensity j) >>= fun td =>
    getAttr (st.charNum j) >>= fun c =>
    td_char_sums ts st >>= fun p =>
    Except.ok (td + p.1, (c : ℚ) + p.2)

mutual
/-- VariantExtractor.compute_density_sum.  All children are recursed (the
    isinstance guard makes the call a no-op on navigable strings); then the
    element children's text-densities and char-numbers are summed.  When
    the node's own char-number exceeds the children's char sum, the excess
    is added to the local density_sum variable, but — matching the
    indentation of the source — the attribute store happens only in the
    other branch, where density_sum is first overwritten with the node's
    own text-density. -/
def compute_density_sum_var : NTree → St → Except Err St
  | .text _ _, st => Except.ok st
  | .elem i _ _ cs, st =>
    compute_density_sum_var_forest cs st >>= fun st =>
    td_char_sums cs st >>= fun p =>
    getAttr (st.charNum i) >>= fun c =>
    if (c : ℚ) > p.2 then
      Except.ok st
    else
      getAttr (st.textDensity i) >>= fun td =>
      Except.ok (st.setDensitySum i td)
def compute_density_sum_var_forest : NForest → St → Except Err St
  | .nil, st => Except.ok st
  | .cons t ts, st =>
    compute_density_sum_var t st >>= fun st =>
    compute_density_sum_var_forest ts st
end

/-- Tags removed outright by preprocessing (the extractors' default). -/
def removables_default : List String := [("script"), ("style")]

mutual
/-- Removal step of preprocess_dom: detach every descendant that has the
    HTML attribute display set to none, and every descendant whose tag is
    removable.  The node itself is kept (find_all only matches strictly
    below). -/
def remove_matching (rem : List String) : NTree → NTree
  | .text i s => .text i s
  | .elem i nm a cs => .elem i nm a (remove_matching_forest rem cs)
def remove_matching_forest (rem : List String) : NForest → NForest
  | .nil => .nil
  | .cons (.text i s) ts => .cons (.text i s) (remove_matching_forest rem ts)
  | .cons (.elem j nm a cs) ts =>
    if a.contains (("display"), ("none")) || rem.contains nm then
      remove_matching_forest rem ts
    else
      .cons (.elem j nm a (remove_matching_forest rem cs)) (remove_matching_forest rem ts)
end

/-- AbstractExtractor.preprocess_dom applied to the value handed back by
    create_doc: on None the very first attribute access raises
    AttributeError; otherwise matching descendants are removed.  The
    trailing loop applies the same removal to following sibling subtrees,
    which the rest of extract_content never reads, so the model applies the
    removal to the given subtree. -/
def preprocess_dom (bs : Option NTree) : Except Err NTree :=
  match bs with
  | none => Except.error Err.attributeErrorNone
  | some t => Except.ok (remove_matching removables_default t)

/-- AbstractExtractor.create_doc: the external provider parses the input
    and the body element is selected, or None when the parse has no body.
    Modelled from the spec: the provider contract of section 6 exposes
    parse as an abstract operation, so it is a parameter here. -/
def create_doc (parse : String → Option NTree) (html : String) : Option NTree :=
  parse html

/-- The prefix of Extractor.extract_content up to and including the
    computation of ratio = linkchar-number / char-number of the body: the
    preprocess step, the four counting passes (Standard strategy), the two
    attribute reads and the division.  Dividing by a zero char-number
    raises ZeroDivisionError.  Everything after this point runs only if
    this prefix succeeded. -/
def extract_head (bs : Option NTree) (hasFollowing : Bool) (st : St) :
    Except Err (St × ℚ) :=
  preprocess_dom bs >>= fun b =>
  (Except.ok (count_chars b st) : Except Err St) >>= fun st =>
  count_tags b hasFollowing st >>= fun st =>
  count_link_chars update_link_chars b st >>= fun st =>
  count_link_tags update_link_chars b st >>= fun st =>
  getAttr (st.charNum b.rootId) >>= fun cn =>
  getAttr (st.linkcharNum b.rootId) >>= fun lcn =>
  if cn = 0 then Except.error Err.zeroDivisionError
  else Except.ok (st, (lcn : ℚ) / (cn : ℚ))

def first_tag_of_forest : NForest → Option NTree
  | .nil => none
  | .cons (.elem j nm a cs) _ => some (.elem j nm a cs)
  | .cons (.text _ _) ts => first_tag_of_forest ts

/-- The first Tag in web_element.descendants: document order walks the
    children left to right, and navigable strings have no descendants, so
    this is the first element child. -/
def first_tag_descendant : NTree → Option NTree
  | .text _ _ => none
  | .elem _ _ _ cs => first_tag_of_forest cs

/-- The provider's find_next with a density-sum filter: the first element
    after the given node in document order of the whole document whose
    density-sum equals the value.  Modelled from the spec: section 4.5
    describes the forward scan in document order and section 6 exposes it
    as find_first over the traversal. -/
def find_next_ds (doc : NTree) (selfId : Nat) (v : ℚ) (st : St) : Option Nat :=
  ((((preorderNodes doc).dropWhile (fun p => p.1 != selfId)).drop 1).find?
    (fun p => p.2 && decide (st.densitySum p.1 = some v))).map (fun p => p.1)

/-- search_tag on the density-sum attribute: check the node itself, then
    scan forward in document order, then recurse into the first Tag
    descendant.  The fuel only bounds the descendant fallback recursion
    (which strictly descends, so any fuel of at least the tree depth
    behaves like the source); exhausted fuel returns no node, like a
    failed search. -/
def search_tag : Nat → NTree → NTree → ℚ → St → Option Nat
  | 0, _, _, _, _ => none
  | fuel + 1, doc, sub, v, st =>
    let selfMatch : Option Nat :=
      match sub with
      | .elem i _ _ _ => if st.densitySum i = some v then some i else none
      | .text _ _ => none
    match selfMatch with
    | some i => some i
    | none =>
      match find_next_ds doc sub.idOf v st with
      | some t => some t
      | none =>
        match first_tag_descendant sub with
        | some s => search_tag fuel doc s v st
        | none => none

mutual
/-- set_mark: write the mark on the node and recurse into element
    children. -/
def set_mark (m : Int) : NTree → St → St
  | .text _ _, st => st
  | .elem i _ _ cs, st => set_mark_forest m cs (st.setMark i m)
def set_mark_forest (m : Int) : NForest → St → St
  | .nil, st => st
  | .cons (.text _ _) ts, st => set_mark_forest m ts st
  | .cons (.elem j nm a cs) ts, st => set_mark_forest m ts (set_mark m (.elem j nm a cs) st)
end

/-- The ancestor walk of get_threshold: walk the parent chain; while the
    parent's lowered name is not html, fold its text-density into the
    threshold with min and set its mark to 2.  Walking past the document
    end (no html ancestor) dereferences None and raises. -/
def walk_threshold (doc : NTree) : List Nat → ℚ → St → Except Err (St × ℚ)
  | [], _, _ => Except.error Err.attributeErrorNone
  | a :: rest, thr, st =>
    match name_of doc a with
    | none => Except.error Err.lookupFailed
    | some nm =>
      if lower_str nm = ("html") then Except.ok (st, thr)
      else
        getAttr (st.textDensity a) >>= fun td =>
        walk_threshold doc rest (min thr td) (st.setMark a 2)

/-- The ancestor walk of find_max_density_sum_tag: set mark 2 on each
    parent up to but excluding the html root. -/
def walk_mark2 (doc : NTree) : List Nat → St → Except Err St
  | [], _ => Except.error Err.attributeErrorNone
  | a :: rest, st =>
    match name_of doc a with
    | none => Except.error Err.lookupFailed
    | some nm =>
      if lower_str nm = ("html") then Except.ok st
      else walk_mark2 doc rest (st.setMark a 2)

/-- get_threshold: locate the node whose density-sum equals the given
    maximum (search_tag; subscripting the None of a failed search raises
    TypeError), take its text-density as the initial threshold, mark its
    whole subtree 1, then walk its ancestors taking min and marking 2. -/
def get_threshold (fuel : Nat) (doc sub : NTree) (maxds : ℚ) (st : St) :
    Except Err (St × ℚ) :=
  match search_tag fuel doc sub maxds st with
  | none => Except.error Err.typeErrorNone
  | some tid =>
    getAttr (st.textDensity tid) >>= fun thr =>
    getNode (subtree_of doc tid) >>= fun tsub =>
    (Except.ok (set_mark 1 tsub st) : Except Err St) >>= fun st =>
    getNode (anc_ids doc tid) >>= fun anc =>
    walk_threshold doc anc thr st

/-- find_max_density_sum_tag: locate the node whose density-sum equals the
    given maximum; if it is not already marked 1, mark its subtree 1 and
    its ancestors (up to but excluding html) 2. -/
def find_max_density_sum_tag (fuel : Nat) (doc sub : NTree) (mds : ℚ) (st : St) :
    Except Err St :=
  match search_tag fuel doc sub mds st with
  | none => Except.error Err.typeErrorNone
  | some tid =>
    getAttr (st.mark tid) >>= fun mk =>
    if mk ≠ 1 then
      getNode (subtree_of doc tid) >>= fun tsub =>
      (Except.ok (set_mark 1 tsub st) : Except Err St) >>= fun st =>
      getNode (anc_ids doc tid) >>= fun anc =>
      walk_mark2 doc anc st
    else Except.ok st

mutual
/-- mark_content: read the node's text-density, max-density-sum and mark
    (a navigable string raises TypeError at the first subscript); when the
    mark is not 1 and the threshold exceeds the density, find and mark the
    subtree with this node's max-density-sum, then recurse into all
    children with the same threshold.  Otherwise nothing happens — in the
    source the children loop is inside the branch. -/
def mark_content (fuel : Nat) (doc : NTree) (thr : ℚ) : NTree → St → Except Err St
  | .text _ _, _ => Except.error Err.typeErrorString
  | .elem i nm a cs, st =>
    getAttr (st.textDensity i) >>= fun td =>
    getAttr (st.maxDensitySum i) >>= fun mds =>
    getAttr (st.mark i) >>= fun mk =>
    if mk ≠ 1 ∧ thr > td then
      find_max_density_sum_tag fuel doc (.elem i nm a cs) mds st >>= fun st =>
      mark_content_forest fuel doc thr cs st
    else Except.ok st
def mark_content_forest (fuel : Nat) (doc : NTree) (thr : ℚ) : NForest → St → Except Err St
  | .nil, st => Except.ok st
  | .cons t ts, st =>
    mark_content fuel doc thr t st >>= fun st =>
    mark_content_forest fuel doc thr ts st
end

/-- The selection phase of extract_content: reset every mark in the body
    subtree to 0, derive the threshold from the node achieving the given
    maximum density-sum, then run mark_content over the body with that
    threshold. -/
def selection_phase (fuel : Nat) (doc : NTree) (bodyId : Nat) (maxds : ℚ) (st : St) :
    Except Err (St × ℚ) :=
  getNode (subtree_of doc bodyId) >>= fun bsub =>
  (Except.ok (set_mark 0 bsub st) : Except Err St) >>= fun st =>
  get_threshold fuel doc bsub maxds st >>= fun p =>
  mark_content fuel doc p.2 bsub p.1 >>= fun st =>
  Except.ok (st, p.2)

/-- The state feeding the C5 run: a body holding only the text hello, so
    its char-number annotation is 5 and there are no element children. -/
def c5_st : St := { St.empty with charNum := fun j => if j = 0 then some 5 else none }

/-- A second C5 state: body with one div child; body has 3 chars, the div
    has 5 chars and text-density 2, body has text-density 7. -/
def c5_st2 : St :=
  { St.empty with
    charNum := fun j => if j = 0 then some 3 else if j = 1 then some 5 else none,
    textDensity := fun j => if j = 0 then some 7 else if j = 1 then some 2 else none }

/-- The document for the C4 runs: html root, body child, div grandchild. -/
def c4_doc : NTree :=
  .elem 0 ("html") [] (.cons (.elem 1 ("body") [] (.cons (.elem 2 ("div") [] .nil) .nil)) .nil)

/-- The body subtree of c4_doc. -/
def c4_body : NTree := .elem 1 ("body") [] (.cons (.elem 2 ("div") [] .nil) .nil)

/-- Marking state for C4: body has text-density 10 (meeting the threshold
    10) and mark 0; the div below has density 0, density-sum 7 equal to its
    max-density-sum, and mark 0. -/
def c4_st : St :=
  { St.empty with
    textDensity := fun j => if j = 1 then some 10 else if j = 2 then some 0 else none,
    densitySum := fun j => if j = 2 then some 7 else none,
    maxDensitySum := fun j => if j = 1 then some 7 else if j = 2 then some 7 else none,
    mark := fun j => if j = 1 ∨ j = 2 then some 0 else none }

/-- The document for the C7 runs: a body holding an anchor, which holds a
    bold element with 4 characters of text. -/
def c7_doc : NTree :=
  .elem 0 ("body") [] (.cons (.elem 1 ("a") []
    (.cons (.elem 2 ("b") [] (.cons (.text 3 ("text")) .nil)) .nil)) .nil)

/-- The state after count_chars, count_tags and count_link_chars (Standard
    strategy) on c7_doc. -/
def c7_st3 : St :=
  match count_tags c7_doc false (count_chars c7_doc St.empty) >>= fun st =>
        count_link_chars update_link_chars c7_doc st with
  | .ok st => st
  | .error _ => St.empty

mutual
/-- No element of the tree is ignorable. -/
def no_ignorables : NTree → Bool
  | .text _ _ => true
  | .elem _ nm _ cs => !is_ignorable nm && no_ignorables_forest cs
def no_ignorables_forest : NForest → Bool
  | .nil => true
  | .cons t ts => no_ignorables t && no_ignorables_forest ts
end

/-- The tree and intermediate states for the C7 amended witness: a body
    with one paragraph holding text, no ignorable elements anywhere. -/
def c7w_doc : NTree :=
  .elem 0 ("body") [] (.cons (.elem 1 ("p") [] (.cons (.text 2 ("hi")) .nil)) .nil)

def c7w_st2 : St :=
  match count_tags c7w_doc false (count_chars c7w_doc St.empty) with
  | .ok st => st
  | .error _ => St.empty

def c7w_st3 : St :=
  match count_link_chars update_link_chars c7w_doc c7w_st2 with
  | .ok st => st
  | .error _ => St.empty

/-- Sum over the element children of the length of their joined stripped
    text — the amounts count_chars_var subtracts from the running plain
    text length. -/
def sub_len : NForest → Nat
  | .nil => 0
  | .cons (.text _ _) ts => sub_len ts
  | .cons (.elem j nm a cs) ts => joinLen (strippedT (.elem j nm a cs)) + sub_len ts

/-- Every navigable string sitting directly under the node is whitespace
    only (no direct text of its own). -/
def direct_text_blank : NForest → Bool
  | .nil => true
  | .cons (.text _ s) ts => (trim_str s == ("")) && direct_text_blank ts
  | .cons (.elem _ _ _ _) ts => direct_text_blank ts

/-- Number of element children whose subtree carries any stripped text. -/
def texty_child_count : NForest → Nat
  | .nil => 0
  | .cons (.text _ _) ts => texty_child_count ts
  | .cons (.elem j nm a cs) ts =>
      (if strippedT (.elem j nm a cs) = [] then 0 else 1) + texty_child_count ts

/-- The ids of the element children at the top level of a forest. -/
def top_elem_ids : NForest → List Nat
  | .nil => []
  | .cons (.text _ _) ts => top_elem_ids ts
  | .cons (.elem j _ _ _) ts => j :: top_elem_ids ts

/-- Sum of the char-number annotations over the element children (absent
    annotations count 0 — in the claims below they are always present). -/
def child_char_sum (st : St) : NForest → Int
  | .nil => 0
  | .cons (.text _ _) ts => child_char_sum st ts
  | .cons (.elem j _ _ _) ts => (st.charNum j).getD 0 + child_char_sum st ts

/-- The per-node content of claim C9 at a subtree rooted by an element:
    its char-number is at least the element children's char sum, with
    equality when there is no direct text and at most one child subtree
    carries text. -/
def chars_claim_sub (st : St) (s : NTree) : Prop :=
  ∀ i nm a cs, s = NTree.elem i nm a cs → ∀ v, st.charNum i = some v →
    child_char_sum st cs ≤ v ∧
    (direct_text_blank cs = true → texty_child_count cs ≤ 1 →
      v = child_char_sum st cs)

def chars_claim (st : St) (t : NTree) : Prop :=
  ∀ j s, subtree_of t j = some s → chars_claim_sub st s

def chars_claim_forest (st : St) (f : NForest) : Prop :=
  ∀ j s, subtree_of_forest f j = some s → chars_claim_sub st s

/-- The tree for the C9 counterexample and witness: a div with two
    paragraph children holding the texts ab and cd, and no direct text. -/
def c9_doc : NTree :=
  .elem 0 ("div") [] (.cons (.elem 1 ("p") [] (.cons (.text 3 ("ab")) .nil))
    (.cons (.elem 2 ("p") [] (.cons (.text 4 ("cd")) .nil)) .nil))

/-- Whether the node with this id has the tag name html (lowercased), the
    sentinel at which ancestor walks stop. -/
def html_name_b (doc : NTree) (a : Nat) : Bool :=
  match name_of doc a with
  | some nm => lower_str nm == ("html")
  | none => false

/-- The synthetic html root is the only node named html — the shape of any
    standard parsed document. -/
def only_root_html (doc : NTree) : Prop :=
  ∀ j ∈ all_ids doc, html_name_b doc j = true → j = doc.rootId

/-- The C6 invariant: every node marked 1 has all its strict non-html
    ancestors marked 1 or 2. -/
def good_marks (doc : NTree) (st : St) : Prop :=
  ∀ i l, st.mark i = some 1 → anc_ids doc i = some l →
    ∀ a ∈ l, html_name_b doc a = false →
      st.mark a = some 1 ∨ st.mark a = some 2

/-- The document for the C6 witness: html root, body, div. -/
def c6_doc : NTree :=
  .elem 0 ("html") [] (.cons (.elem 1 ("body") []
    (.cons (.elem 2 ("div") [] .nil) .nil)) .nil)

/-- The pre-selection state for the C6 witness: the body carries
    text-density 3 and density-sum 5 equal to its max-density-sum; no node
    is marked. -/
def c6_st : St :=
  { St.empty with
    textDensity := fun j => if j = 1 then some 3 else none,
    densitySum := fun j => if j = 1 then some 5 else none,
    maxDensitySum := fun j => if j = 1 then some 5 else none }

/-- The state the selection phase produces on the C6 witness document. -/
def c6_final : St :=
  match selection_phase 10 c6_doc 1 5 c6_st with
  | .ok p => p.1
  | .error _ => St.empty

theorem except_ok_bind {ε α β : Type} (a : α) (f : α → Except ε β) :
    (Except.ok a >>= f) = f a := rfl

theorem except_error_bind {ε α β : Type} (e : ε) (f : α → Except ε β) :
    ((Except.error e : Except ε α) >>= f) = Except.error e := rfl

/-- C1: the spec claims a zero-character root is special-cased so that
    extract returns the empty string.  The code has no such case: on a
    parsed body with no text at all, the counting passes set char-number
    and linkchar-number of the body to 0 and the ratio division raises
    ZeroDivisionError, so extract_content propagates the arithmetic fault
    instead of returning empty output. -/
theorem c1_zero_char_root_raises_division_error :
    extract_head (some (.elem 0 ("body") [] .nil)) false St.empty =
      Except.error Err.zeroDivisionError := rfl

/-- C3: the claim says count_tags gives the root a tag-number equal to the
    number of element nodes in its subtree (each direct child element
    contributing 1 plus its own subtree count).  The summing loop of the
    code only adds each child's tag-number, never the extra 1, so on a body
    with a single paragraph child — whose subtree holds exactly 1 element —
    the root's tag-number is set to 0 (as is every tag-number). -/
theorem c3_count_tags_root_not_subtree_count :
    (count_tags (.elem 0 ("body") [] (.cons (.elem 1 ("p") []
        (.cons (.text 2 ("x")) .nil)) .nil)) false St.empty).map
      (fun st => (st.tagNum 0, st.tagNum 1)) = Except.ok (some 0, some 0)
    ∧ desc_elem_count (.elem 0 ("body") [] (.cons (.elem 1 ("p") []
        (.cons (.text 2 ("x")) .nil)) .nil)) = 1 := ⟨rfl, rfl⟩

/-- C5: the claim says the Simplified compute_density_sum stores, on every
    node, the sum of the element children's text-densities plus the excess
    of the node's char-number over the children's char sum.  In the code
    the store sits inside the else branch only: when the excess is positive
    (body with 5 direct chars, children sum 0, claimed density-sum 5) the
    attribute is never written at all, and in the else branch (body char 3,
    child char sum 5, child text-density sum 2) the stored value is the
    node's own text-density 7 instead of the children's sum 2. -/
theorem c5_density_sum_store_misplaced :
    (compute_density_sum_var (.elem 0 ("body") [] (.cons (.text 1 ("hello")) .nil))
        c5_st).map (fun st => st.densitySum 0) = Except.ok none
    ∧ (compute_density_sum_var (.elem 0 ("body") [] (.cons (.elem 1 ("div") [] .nil) .nil))
        c5_st2).map (fun st => st.densitySum 0) = Except.ok (some 7) := by
  refine ⟨rfl, ?_⟩
  show (compute_density_sum_var_forest (.cons (.elem 1 ("div") [] .nil) .nil) c5_st2 >>= fun st =>
    td_char_sums (.cons (.elem 1 ("div") [] .nil) .nil) st >>= fun p =>
    getAttr (st.charNum 0) >>= fun c =>
    if (c : ℚ) > p.2 then Except.ok st
    else getAttr (st.textDensity 0) >>= fun td => Except.ok (st.setDensitySum 0 td)).map
      (fun st => st.densitySum 0) = Except.ok (some 7)
  norm_num [compute_density_sum_var_forest, compute_density_sum_var, td_char_sums, getAttr, c5_st2, St.empty, except_ok_bind]
  rfl

/-- C10: when the provider parse yields no body element, create_doc hands
    None to the pipeline and the very first step, preprocess_dom, raises
    AttributeError on None before any counting happens, so extract_content
    fails rather than returning any string. -/
theorem c10_no_body_fails_first_step (parse : String → Option NTree) (html : String)
    (hf : Bool) (st : St) (h : parse html = none) :
    extract_head (create_doc parse html) hf st = Except.error Err.attributeErrorNone := by
  unfold create_doc
  rw [h]
  rfl

/-- Witness for C10 at a concrete parse that yields no body. -/
theorem c10_no_body_fails_first_step_witness :
    (fun _ : String => (none : Option NTree)) ("<p>frag</p>") = none ∧
    extract_head (create_doc (fun _ => none) ("<p>frag</p>")) false St.empty =
      Except.error Err.attributeErrorNone :=
  ⟨rfl, c10_no_body_fails_first_step (fun _ => none) ("<p>frag</p>") false St.empty rfl⟩

/-- C8: the bounded (EDGAR) extractor narrows its input before parsing:
    without a literal lowercase html open tag, str.index raises ValueError
    and extract_content fails instead of processing the whole string; with
    both delimiters present the parsed text is exactly the slice of the
    input from the first open delimiter through the first close delimiter. -/
theorem c8_edgar_narrowing (html : String) (rest : String → Except Err String) :
    (str_index html ("<html>") = none →
      edgar_extract_with rest html = Except.error Err.valueError) ∧
    (∀ i j, str_index html ("<html>") = some i → str_index html ("</html>") = some j →
      edgar_narrow html =
        Except.ok (String.mk (((html.data).drop i).take (j + 6 + 1 - i)))) := by
  constructor
  · intro h
    unfold edgar_extract_with edgar_narrow
    rw [h]
    rfl
  · intro i j hi hj
    unfold edgar_narrow
    rw [hi, hj]

/-- Witness for C8: a string without the delimiter fails; a string with
    both delimiters is narrowed to the delimited slice. -/
theorem c8_edgar_narrowing_witness :
    str_index ("plain text") ("<html>") = none ∧
    edgar_extract_with (fun s => Except.ok s) ("plain text") = Except.error Err.valueError ∧
    str_index ("x<html>ab</html>y") ("<html>") = some 1 ∧
    str_index ("x<html>ab</html>y") ("</html>") = some 9 ∧
    edgar_narrow ("x<html>ab</html>y") = Except.ok ("<html>ab</html>") :=
  ⟨rfl,
   (c8_edgar_narrowing ("plain text") (fun s => Except.ok s)).1 rfl,
   rfl, rfl,
   (c8_edgar_narrowing ("x<html>ab</html>y") (fun s => Except.ok s)).2 1 9 rfl rfl⟩

/-- C4, counterexample: the claim says a node whose mark is not 1 and whose
    text-density meets or exceeds the threshold is left as-is but its
    children are still visited with the same threshold.  On c4_st the body
    has mark 0 and density 10 = threshold, yet mark_content leaves every
    mark unchanged (the children loop sits inside the marking branch);
    actually visiting the children, as the claim requires, would mark the
    div 1 and the body 2. -/
theorem c4_counterexample_children_not_visited :
    (mark_content 10 c4_doc 10 c4_body c4_st).map (fun st => (st.mark 1, st.mark 2)) =
      Except.ok (some 0, some 0)
    ∧ (mark_content_forest 10 c4_doc 10 (.cons (.elem 2 ("div") [] .nil) .nil) c4_st).map
        (fun st => (st.mark 1, st.mark 2)) = Except.ok (some 2, some 1)
    ∧ c4_st.mark 1 = some 0
    ∧ c4_st.textDensity 1 = some 10 ∧ ¬ ((10 : ℚ) > 10) :=
  ⟨rfl, rfl, rfl, rfl, by norm_num⟩

/-- C4 amended: mark_content recurses into the children only when the mark
    is not 1 and the density is strictly below the threshold; a node with
    mark 1, or with density meeting or exceeding the threshold, is left
    entirely as-is — its children are not visited.  When the branch is
    taken, the node's max-density-sum subtree is located and marked first
    and then every child is visited with the same threshold. -/
theorem c4_amended_mark_content_branching (fuel : Nat) (doc : NTree) (thr : ℚ)
    (i : Nat) (nm : String) (a : List (String × String)) (cs : NForest) (st : St)
    (td mds : ℚ) (mk : Int)
    (h1 : st.textDensity i = some td) (h2 : st.maxDensitySum i = some mds)
    (h3 : st.mark i = some mk) :
    ((mk = 1 ∨ thr ≤ td) → mark_content fuel doc thr (.elem i nm a cs) st = Except.ok st) ∧
    (mk ≠ 1 → thr > td → mark_content fuel doc thr (.elem i nm a cs) st =
      find_max_density_sum_tag fuel doc (.elem i nm a cs) mds st >>=
        mark_content_forest fuel doc thr cs) := by
  constructor
  · intro h
    have hc : ¬ (mk ≠ 1 ∧ thr > td) := by
      rcases h with h | h
      · exact fun hh => hh.1 h
      · exact fun hh => absurd hh.2 (not_lt.mpr h)
    simp only [mark_content, h1, h2, h3, getAttr, except_ok_bind, if_neg hc]
  · intro hmk hlt
    simp only [mark_content, h1, h2, h3, getAttr, except_ok_bind, if_pos (And.intro hmk hlt)]

/-- Witness for the C4 amended theorem at the concrete marking state: the
    body's density meets the threshold, so the call returns the state
    untouched. -/
theorem c4_amended_mark_content_branching_witness :
    c4_st.textDensity 1 = some 10 ∧ c4_st.maxDensitySum 1 = some 7 ∧
    c4_st.mark 1 = some 0 ∧ ((0 : Int) = 1 ∨ (10 : ℚ) ≤ 10) ∧
    mark_content 10 c4_doc 10 c4_body c4_st = Except.ok c4_st :=
  ⟨rfl, rfl, rfl, Or.inr (le_refl 10),
   (c4_amended_mark_content_branching 10 c4_doc 10 1 ("body") []
      (.cons (.elem 2 ("div") [] .nil) .nil) c4_st 10 7 0 rfl rfl rfl).1
     (Or.inr (le_refl 10))⟩

/-- C7, counterexample: count_link_chars leaves the bold element (id 2)
    with linkchar-number 4, and the later pass count_link_tags — through
    its call of update_link_chars on the ignorable anchor — writes that
    node's linkchar-number again (the write appears in the log delta of the
    count_link_tags run), contradicting the claim that no later counting
    pass rewrites an annotation set by an earlier pass. -/
theorem c7_counterexample_linkchar_rewritten_by_count_link_tags :
    c7_st3.linkcharNum 2 = some 4
    ∧ (count_link_tags update_link_chars c7_doc c7_st3).map
        (fun st => ((st.log.drop c7_st3.log.length).contains (2, AKey.linkcharNum),
                    st.linkcharNum 2)) = Except.ok (true, some 4) := ⟨rfl, rfl⟩

theorem two_lt_exp_one : (2 : ℝ) < Real.exp 1 := by
  have h := Real.exp_one_gt_d9
  linarith

theorem exp_one_lt_three : Real.exp 1 < 3 := by
  have h := Real.exp_one_lt_d9
  linarith

/-- C2, counterexample: the claim quantifies over all finite non-negative
    count annotations, but when linkchar-number exceeds char-number the
    un-linkchar value is negative (not zero, so the clamp does not fire)
    and the denominator's outer logarithm receives the non-positive value
    ln(e - 2) < ln e = 1: with char 1, tag 0, linkchar 2, linktag 0 and
    ratio 0 the Standard formula raises a math domain error instead of
    producing a non-negative density. -/
theorem c2_counterexample_std_log_domain_error :
    compute_text_density 1 0 2 0 0 = Except.error Err.valueError := by
  have he2 : (0:ℝ) < Real.exp 1 - 2 := by linarith [two_lt_exp_one]
  have he3 : Real.exp 1 - 2 ≤ 1 := by linarith [exp_one_lt_three]
  have hlog : Real.log (Real.exp 1 - 2) ≤ 0 := Real.log_nonpos (le_of_lt he2) he3
  simp only [compute_text_density, ln_checked]
  norm_num
  rw [except_ok_bind, if_pos two_lt_exp_one, except_ok_bind,
      if_neg (by rw [neg_add_eq_sub]; exact not_lt.mpr hlog)]
  rfl

/-- C2 amended: for finite non-negative annotations with linkchar-number
    at most char-number (as the counting passes produce) and a non-negative
    ratio, the Standard density evaluates without any log-domain fault to a
    value that is at least 0 (every logarithm receives a strictly positive
    argument, and the floor at 0 applies), and the Simplified density is
    non-negative as well. -/
theorem c2_amended_density_nonneg (c t lc lt : Int) (r : ℝ)
    (hc : 0 ≤ c) (ht : 0 ≤ t) (hlc : 0 ≤ lc) (hlt : 0 ≤ lt) (hle : lc ≤ c) (hr : 0 ≤ r) :
    (∃ d, compute_text_density c t lc lt r = Except.ok d ∧ 0 ≤ d) ∧
    0 ≤ compute_text_density_var c t := by
  constructor
  · by_cases hc0 : c = 0
    · exact Exists.intro 0 (by simp [compute_text_density, hc0])
    · have hc1 : (1:Int) ≤ c := by omega
      simp only [compute_text_density, ln_checked, if_neg hc0]
      set T : Int := (if t = 0 then 1 else t) with hT
      set LC : Int := (if lc = 0 then 1 else lc) with hLC
      set LT : Int := (if lt = 0 then 1 else lt) with hLT
      set UN : Int := (if c - lc = 0 then 1 else c - lc) with hUN
      have h1T : (1:Int) ≤ T := by rw [hT]; split_ifs with h <;> omega
      have h1LC : (1:Int) ≤ LC := by rw [hLC]; split_ifs with h <;> omega
      have h1LT : (1:Int) ≤ LT := by rw [hLT]; split_ifs with h <;> omega
      have h1UN : (1:Int) ≤ UN := by rw [hUN]; split_ifs with h <;> omega
      have hcR : (1:ℝ) ≤ (c:ℝ) := by exact_mod_cast hc1
      have hTR : (1:ℝ) ≤ (T:ℝ) := by exact_mod_cast h1T
      have hLCR : (1:ℝ) ≤ (LC:ℝ) := by exact_mod_cast h1LC
      have hLTR : (1:ℝ) ≤ (LT:ℝ) := by exact_mod_cast h1LT
      have hUNR : (1:ℝ) ≤ (UN:ℝ) := by exact_mod_cast h1UN
      have hA : (0:ℝ) < (c:ℝ) * T / ((LC:ℝ) * LT) :=
        div_pos (by nlinarith) (by nlinarith)
      have hBgt : (1:ℝ) < (c:ℝ) * LC / UN + r * (c:ℝ) + Real.exp 1 := by
        have hx : (0:ℝ) < (c:ℝ) * LC / UN := div_pos (by nlinarith) (by linarith)
        have hy : (0:ℝ) ≤ r * (c:ℝ) := mul_nonneg hr (by linarith)
        nlinarith [two_lt_exp_one]
      have hB : (0:ℝ) < (c:ℝ) * LC / UN + r * (c:ℝ) + Real.exp 1 := by linarith
      have hC : (0:ℝ) < Real.log ((c:ℝ) * LC / UN + r * (c:ℝ) + Real.exp 1) :=
        Real.log_pos hBgt
      rw [if_pos hA, except_ok_bind, if_pos hB, except_ok_bind, if_pos hC, except_ok_bind]
      exact Exists.intro _ (And.intro rfl (le_max_right _ 0))
  · unfold compute_text_density_var
    split_ifs with h1 h2
    · apply div_nonneg (by exact_mod_cast hc)
      norm_num
    · apply div_nonneg (by exact_mod_cast hc)
      exact_mod_cast ht
    · exact le_refl 0

/-- Witness for the C2 amended theorem at annotations char 4, tag 1,
    linkchar 1, linktag 1, ratio 0. -/
theorem c2_amended_density_nonneg_witness :
    (0 ≤ (4:Int) ∧ 0 ≤ (1:Int) ∧ (1:Int) ≤ 4 ∧ (0:ℝ) ≤ 0) ∧
    ((∃ d, compute_text_density 4 1 1 1 0 = Except.ok d ∧ 0 ≤ d) ∧
      0 ≤ compute_text_density_var 4 1) :=
  ⟨⟨by norm_num, by norm_num, by norm_num, le_refl 0⟩,
   c2_amended_density_nonneg 4 1 1 1 0 (by norm_num) (by norm_num) (by norm_num)
     (by norm_num) (by norm_num) (le_refl 0)⟩

theorem bind_ok_iff {ε α β : Type} (x : Except ε α) (f : α → Except ε β) (b : β) :
    (x >>= f) = Except.ok b ↔ ∃ a, x = Except.ok a ∧ f a = Except.ok b := by
  cases x <;> simp [except_error_bind, except_ok_bind]

mutual
theorem clc_log : ∀ (t : NTree) (st st' : St), no_ignorables t = true →
    count_link_chars update_link_chars t st = Except.ok st' →
    ∃ d, st'.log = st.log ++ d ∧ ∀ p ∈ d, p.2 = AKey.linkcharNum
  | .text _ _, st, st', _, he => by
      simp only [count_link_chars] at he
      injection he with he
      subst he
      exact ⟨[], by simp, by simp⟩
  | .elem i nm a cs, st, st', hni, he => by
      simp only [no_ignorables, Bool.and_eq_true, Bool.not_eq_true'] at hni
      obtain ⟨hig, hforest⟩ := hni
      simp only [count_link_chars] at he
      rw [bind_ok_iff] at he
      obtain ⟨st1, h1, h2⟩ := he
      rw [if_neg (by simp [hig])] at h2
      rw [bind_ok_iff] at h2
      obtain ⟨s, _, h3⟩ := h2
      injection h3 with h3
      subst h3
      obtain ⟨d1, hd1, hall1⟩ := clc_log_forest cs st st1 hforest h1
      refine ⟨d1 ++ [(i, AKey.linkcharNum)], ?_, ?_⟩
      · simp [St.setLinkcharNum, hd1]
      · intro p hp
        rcases List.mem_append.mp hp with h | h
        · exact hall1 p h
        · simp only [List.mem_singleton] at h
          subst h
          rfl
theorem clc_log_forest : ∀ (f : NForest) (st st' : St), no_ignorables_forest f = true →
    count_link_chars_forest update_link_chars f st = Except.ok st' →
    ∃ d, st'.log = st.log ++ d ∧ ∀ p ∈ d, p.2 = AKey.linkcharNum
  | .nil, st, st', _, he => by
      simp only [count_link_chars_forest] at he
      injection he with he
      subst he
      exact ⟨[], by simp, by simp⟩
  | .cons (.text j s) ts, st, st', hni, he => by
      simp only [no_ignorables_forest, no_ignorables, Bool.and_eq_true, true_and] at hni
      simp only [count_link_chars_forest] at he
      exact clc_log_forest ts st st' hni he
  | .cons (.elem j nm a cs) ts, st, st', hni, he => by
      simp only [no_ignorables_forest, Bool.and_eq_true] at hni
      obtain ⟨ht, hts⟩ := hni
      simp only [count_link_chars_forest] at he
      rw [bind_ok_iff] at he
      obtain ⟨st1, h1, h2⟩ := he
      obtain ⟨d1, hd1, hall1⟩ := clc_log (.elem j nm a cs) st st1 ht h1
      obtain ⟨d2, hd2, hall2⟩ := clc_log_forest ts st1 st' hts h2
      refine ⟨d1 ++ d2, ?_, ?_⟩
      · rw [hd2, hd1, List.append_assoc]
      · intro p hp
        rcases List.mem_append.mp hp with h | h
        · exact hall1 p h
        · exact hall2 p h
end

mutual
theorem clt_log : ∀ (t : NTree) (st st' : St), no_ignorables t = true →
    count_link_tags update_link_chars t st = Except.ok st' →
    ∃ d, st'.log = st.log ++ d ∧ ∀ p ∈ d, p.2 = AKey.linktagNum
  | .text _ _, st, st', _, he => by
      simp only [count_link_tags] at he
      injection he with he
      subst he
      exact ⟨[], by simp, by simp⟩
  | .elem i nm a cs, st, st', hni, he => by
      simp only [no_ignorables, Bool.and_eq_true, Bool.not_eq_true'] at hni
      obtain ⟨hig, hforest⟩ := hni
      simp only [count_link_tags] at he
      rw [bind_ok_iff] at he
      obtain ⟨st1, h1, h2⟩ := he
      rw [if_neg (by simp [hig])] at h2
      rw [bind_ok_iff] at h2
      obtain ⟨s, _, h3⟩ := h2
      injection h3 with h3
      subst h3
      obtain ⟨d1, hd1, hall1⟩ := clt_log_forest cs st st1 hforest h1
      refine ⟨d1 ++ [(i, AKey.linktagNum)], ?_, ?_⟩
      · simp [St.setLinktagNum, hd1]
      · intro p hp
        rcases List.mem_append.mp hp with h | h
        · exact hall1 p h
        · simp only [List.mem_singleton] at h
          subst h
          rfl
theorem clt_log_forest : ∀ (f : NForest) (st st' : St), no_ignorables_forest f = true →
    count_link_tags_forest update_link_chars f st = Except.ok st' →
    ∃ d, st'.log = st.log ++ d ∧ ∀ p ∈ d, p.2 = AKey.linktagNum
  | .nil, st, st', _, he => by
      simp only [count_link_tags_forest] at he
      injection he with he
      subst he
      exact ⟨[], by simp, by simp⟩
  | .cons (.text j s) ts, st, st', hni, he => by
      simp only [no_ignorables_forest, no_ignorables, Bool.and_eq_true, true_and] at hni
      simp only [count_link_tags_forest] at he
      exact clt_log_forest ts st st' hni he
  | .cons (.elem j nm a cs) ts, st, st', hni, he => by
      simp only [no_ignorables_forest, Bool.and_eq_true] at hni
      obtain ⟨ht, hts⟩ := hni
      simp only [count_link_tags_forest] at he
      rw [bind_ok_iff] at he
      obtain ⟨st1, h1, h2⟩ := he
      obtain ⟨d1, hd1, hall1⟩ := clt_log (.elem j nm a cs) st st1 ht h1
      obtain ⟨d2, hd2, hall2⟩ := clt_log_forest ts st1 st' hts h2
      refine ⟨d1 ++ d2, ?_, ?_⟩
      · rw [hd2, hd1, List.append_assoc]
      · intro p hp
        rcases List.mem_append.mp hp with h | h
        · exact hall1 p h
        · exact hall2 p h
end

/-- C7 amended: on a tree without ignorable elements (so update_link_chars
    is never triggered), count_link_chars writes only linkchar-number
    entries and count_link_tags writes only linktag-number entries: each
    pass owns its annotation and no later pass rewrites an earlier pass's
    values.  When an ignorable element is present this discipline fails:
    count_link_chars writes descendants' linkchar-number a second time via
    update_link_chars, and count_link_tags rewrites linkchar-number again
    (in the Variant strategy update_link_chars rewrites char-number). -/
theorem c7_amended_write_discipline (t : NTree) (st : St) (h : no_ignorables t = true) :
    (∀ st', count_link_chars update_link_chars t st = Except.ok st' →
      ∃ d, st'.log = st.log ++ d ∧ ∀ p ∈ d, p.2 = AKey.linkcharNum) ∧
    (∀ st', count_link_tags update_link_chars t st = Except.ok st' →
      ∃ d, st'.log = st.log ++ d ∧ ∀ p ∈ d, p.2 = AKey.linktagNum) :=
  ⟨fun st' => clc_log t st st' h, fun st' => clt_log t st st' h⟩

/-- Witness for the C7 amended theorem on the concrete ignorable-free
    body: both link passes succeed and their write logs hold only entries
    of the key each pass owns. -/
theorem c7_amended_write_discipline_witness :
    no_ignorables c7w_doc = true ∧
    (∃ d, c7w_st3.log = c7w_st2.log ++ d ∧ ∀ p ∈ d, p.2 = AKey.linkcharNum) ∧
    (∃ d, (match count_link_tags update_link_chars c7w_doc c7w_st3 with
            | .ok st => st | .error _ => St.empty).log = c7w_st3.log ++ d ∧
          ∀ p ∈ d, p.2 = AKey.linktagNum) :=
  ⟨rfl,
   (c7_amended_write_discipline c7w_doc c7w_st2 rfl).1 c7w_st3 rfl,
   (c7_amended_write_discipline c7w_doc c7w_st3 rfl).2 _ rfl⟩

mutual
theorem elem_ids_subset_all : ∀ (t : NTree) (x : Nat), x ∈ elem_ids t → x ∈ all_ids t
  | .elem i nm a cs, x, hx => by
      simp only [elem_ids, all_ids, List.mem_cons] at hx ⊢
      rcases hx with h | h
      · exact Or.inl h
      · exact Or.inr (elem_ids_subset_all_forest cs x h)
  | .text i s, x, hx => by simp [elem_ids] at hx
theorem elem_ids_subset_all_forest : ∀ (f : NForest) (x : Nat),
    x ∈ elem_ids_forest f → x ∈ all_ids_forest f
  | .cons t ts, x, hx => by
      simp only [elem_ids_forest, all_ids_forest, List.mem_append] at hx ⊢
      rcases hx with h | h
      · exact Or.inl (elem_ids_subset_all t x h)
      · exact Or.inr (elem_ids_subset_all_forest ts x h)
end

mutual
theorem subtree_of_id : ∀ (t : NTree) (j : Nat) (s : NTree),
    subtree_of t j = some s → s.idOf = j
  | .elem i nm a cs, j, s, h => by
      simp only [subtree_of] at h
      split_ifs at h with hij
      · injection h with h
        subst h
        exact hij.symm ▸ rfl
      · exact subtree_of_id_forest cs j s h
  | .text i c, j, s, h => by
      simp only [subtree_of] at h
      split_ifs at h with hij
      injection h with h
      subst h
      exact hij.symm ▸ rfl
theorem subtree_of_id_forest : ∀ (f : NForest) (j : Nat) (s : NTree),
    subtree_of_forest f j = some s → s.idOf = j
  | .cons t ts, j, s, h => by
      simp only [subtree_of_forest] at h
      cases hh : subtree_of t j with
      | some s0 =>
          rw [hh] at h
          injection h with h
          subst h
          exact subtree_of_id t j _ hh
      | none =>
          rw [hh] at h
          exact subtree_of_id_forest ts j s h
end

mutual
theorem subtree_all_sub : ∀ (t : NTree) (j : Nat) (s : NTree),
    subtree_of t j = some s → ∀ x, x ∈ all_ids s → x ∈ all_ids t
  | .elem i nm a cs, j, s, h, x, hx => by
      simp only [subtree_of] at h
      split_ifs at h with hij
      · injection h with h
        subst h
        exact hx
      · simp only [all_ids, List.mem_cons]
        exact Or.inr (subtree_all_sub_forest cs j s h x hx)
  | .text i c, j, s, h, x, hx => by
      simp only [subtree_of] at h
      split_ifs at h with hij
      injection h with h
      subst h
      exact hx
theorem subtree_all_sub_forest : ∀ (f : NForest) (j : Nat) (s : NTree),
    subtree_of_forest f j = some s → ∀ x, x ∈ all_ids s → x ∈ all_ids_forest f
  | .cons t ts, j, s, h, x, hx => by
      simp only [subtree_of_forest] at h
      simp only [all_ids_forest, List.mem_append]
      cases hh : subtree_of t j with
      | some s0 =>
          rw [hh] at h
          injection h with h
          subst h
          exact Or.inl (subtree_all_sub t j _ hh x hx)
      | none =>
          rw [hh] at h
          exact Or.inr (subtree_all_sub_forest ts j s h x hx)
end

mutual
theorem subtree_elem_mem : ∀ (t : NTree) (j : Nat) (i : Nat) (nm : String)
    (a : List (String × String)) (cs : NForest),
    subtree_of t j = some (.elem i nm a cs) → j ∈ elem_ids t
  | .elem i0 nm0 a0 cs0, j, i, nm, a, cs, h => by
      simp only [subtree_of] at h
      split_ifs at h with hij
      · simp [elem_ids, hij.symm]
      · simp only [elem_ids, List.mem_cons]
        exact Or.inr (subtree_elem_mem_forest cs0 j i nm a cs h)
  | .text i0 c0, j, i, nm, a, cs, h => by
      simp only [subtree_of] at h
      split_ifs at h with hij
      injection h with h
      injection h
theorem subtree_elem_mem_forest : ∀ (f : NForest) (j : Nat) (i : Nat) (nm : String)
    (a : List (String × String)) (cs : NForest),
    subtree_of_forest f j = some (.elem i nm a cs) → j ∈ elem_ids_forest f
  | .cons t ts, j, i, nm, a, cs, h => by
      simp only [subtree_of_forest] at h
      simp only [elem_ids_forest, List.mem_append]
      cases hh : subtree_of t j with
      | some s0 =>
          rw [hh] at h
          injection h with h
          subst h
          exact Or.inl (subtree_elem_mem t j i nm a cs hh)
      | none =>
          rw [hh] at h
          exact Or.inr (subtree_elem_mem_forest ts j i nm a cs h)
end

theorem joinLen_append_le (A B : List String) :
    joinLen A + joinLen B ≤ joinLen (A ++ B) := by
  cases A with
  | nil => simp [joinLen]
  | cons a as =>
    cases B with
    | nil => simp [joinLen]
    | cons b bs =>
      have hAB : (a :: as) ++ b :: bs = a :: (as ++ b :: bs) := rfl
      rw [hAB]
      simp only [joinLen, List.map_cons, List.map_append, List.sum_cons, List.sum_append,
        List.length_cons, List.length_append]
      omega

theorem sub_len_le_joinLen : ∀ (f : NForest), sub_len f ≤ joinLen (strippedF f)
  | .nil => le_refl 0
  | .cons (.text j s) ts => by
      have h := joinLen_append_le (strippedT (.text j s)) (strippedF ts)
      have h2 := sub_len_le_joinLen ts
      simp only [sub_len, strippedF]
      omega
  | .cons (.elem j nm a cs) ts => by
      have h := joinLen_append_le (strippedT (.elem j nm a cs)) (strippedF ts)
      have h2 := sub_len_le_joinLen ts
      simp only [sub_len, strippedF]
      omega

theorem stripped_nil_of_blank : ∀ (f : NForest), direct_text_blank f = true →
    texty_child_count f = 0 → strippedF f = []
  | .nil, _, _ => rfl
  | .cons (.text j s) ts, hb, hc => by
      simp only [direct_text_blank, Bool.and_eq_true, beq_iff_eq] at hb
      simp only [texty_child_count] at hc
      simp only [strippedF, strippedT, hb.1, if_pos]
      simpa using stripped_nil_of_blank ts hb.2 hc
  | .cons (.elem j nm a cs) ts, hb, hc => by
      simp only [direct_text_blank] at hb
      simp only [texty_child_count] at hc
      have h1 : strippedT (.elem j nm a cs) = [] := by
        by_contra h
        rw [if_neg h] at hc
        omega
      have h2 : texty_child_count ts = 0 := by
        rw [if_pos h1] at hc
        omega
      simp only [strippedF, h1, List.nil_append]
      exact stripped_nil_of_blank ts hb h2

theorem sub_len_zero_of_stripped_nil : ∀ (f : NForest), strippedF f = [] → sub_len f = 0 := by
  intro f h
  have h1 := sub_len_le_joinLen f
  rw [h] at h1
  simpa [joinLen] using h1

theorem sub_len_eq_of_blank : ∀ (f : NForest), direct_text_blank f = true →
    texty_child_count f ≤ 1 → joinLen (strippedF f) = sub_len f
  | .nil, _, _ => rfl
  | .cons (.text j s) ts, hb, hc => by
      simp only [direct_text_blank, Bool.and_eq_true, beq_iff_eq] at hb
      simp only [texty_child_count] at hc
      simp only [strippedF, strippedT, hb.1, if_pos, List.nil_append, sub_len]
      exact sub_len_eq_of_blank ts hb.2 hc
  | .cons (.elem j nm a cs) ts, hb, hc => by
      simp only [direct_text_blank] at hb
      simp only [texty_child_count] at hc
      by_cases h1 : strippedT (.elem j nm a cs) = []
      · rw [if_pos h1] at hc
        have hIH := sub_len_eq_of_blank ts hb (by omega)
        simp only [strippedF, sub_len, h1, List.nil_append]
        rw [show joinLen ([] : List String) = 0 from rfl]
        omega
      · rw [if_neg h1] at hc
        have hc0 : texty_child_count ts = 0 := by omega
        have hnil : strippedF ts = [] := stripped_nil_of_blank ts hb hc0
        have hsl : sub_len ts = 0 := sub_len_zero_of_stripped_nil ts hnil
        simp only [strippedF, sub_len, hnil, List.append_nil, hsl]
        omega

theorem char_sum_sub_spec : ∀ (f : NForest) (st : St) (plain : Int),
    (∀ p ∈ top_elem_ids f, (st.charNum p).isSome = true) →
    char_sum_sub f st plain = Except.ok (child_char_sum st f, plain - (sub_len f : Int))
  | .nil, st, plain, _ => by
      simp [char_sum_sub, child_char_sum, sub_len]
  | .cons (.text j s) ts, st, plain, h => by
      simp only [top_elem_ids] at h
      simp only [char_sum_sub, child_char_sum, sub_len]
      exact char_sum_sub_spec ts st plain h
  | .cons (.elem j nm a cs) ts, st, plain, h => by
      simp only [top_elem_ids, List.mem_cons] at h
      have hj := h j (Or.inl rfl)
      obtain ⟨c, hc⟩ := Option.isSome_iff_exists.mp hj
      simp only [char_sum_sub, child_char_sum, sub_len, hc, getAttr, except_ok_bind]
      rw [char_sum_sub_spec ts st (plain - (joinLen (strippedT (.elem j nm a cs)) : Int))
        (fun p hp => h p (Or.inr hp))]
      simp only [except_ok_bind, hc, Option.getD_some]
      have harr : plain - (joinLen (strippedT (NTree.elem j nm a cs)) : Int) - (sub_len ts : Int)
          = plain - ((joinLen (strippedT (NTree.elem j nm a cs)) + sub_len ts : Nat) : Int) := by
        push_cast
        ring
      rw [harr]

theorem child_char_sum_congr : ∀ (f : NForest) (st1 st2 : St),
    (∀ p ∈ top_elem_ids f, st1.charNum p = st2.charNum p) →
    child_char_sum st1 f = child_char_sum st2 f
  | .nil, _, _, _ => rfl
  | .cons (.text j s) ts, st1, st2, h => by
      simp only [top_elem_ids] at h
      simp only [child_char_sum]
      exact child_char_sum_congr ts st1 st2 h
  | .cons (.elem j nm a cs) ts, st1, st2, h => by
      simp only [top_elem_ids, List.mem_cons] at h
      simp only [child_char_sum]
      rw [h j (Or.inl rfl), child_char_sum_congr ts st1 st2 (fun p hp => h p (Or.inr hp))]

theorem top_elem_subset_all : ∀ (f : NForest), ∀ p ∈ top_elem_ids f, p ∈ all_ids_forest f
  | .nil => by simp [top_elem_ids]
  | .cons (.text j s) ts => by
      simp only [top_elem_ids, all_ids_forest, List.mem_append]
      exact fun p hp => Or.inr (top_elem_subset_all ts p hp)
  | .cons (.elem j nm a cs) ts => by
      simp only [top_elem_ids, all_ids_forest, all_ids, List.mem_cons, List.mem_append]
      rintro p (rfl | hp)
      · simp
      · exact Or.inr (top_elem_subset_all ts p hp)

theorem chars_claim_sub_congr (s : NTree) (st1 st2 : St)
    (h : ∀ x ∈ all_ids s, st1.charNum x = st2.charNum x)
    (hc : chars_claim_sub st1 s) : chars_claim_sub st2 s := by
  intro i nm a cs hs v hv
  subst hs
  have hi : i ∈ all_ids (NTree.elem i nm a cs) := by simp [all_ids]
  have htops : ∀ p ∈ top_elem_ids cs, st1.charNum p = st2.charNum p := by
    intro p hp
    apply h
    simp only [all_ids, List.mem_cons]
    exact Or.inr (top_elem_subset_all cs p hp)
  have hv1 : st1.charNum i = some v := by rw [h i hi]; exact hv
  obtain ⟨h1, h2⟩ := hc i nm a cs rfl v hv1
  rw [child_char_sum_congr cs st1 st2 htops] at h1 h2
  exact ⟨h1, h2⟩

theorem child_char_sum_zero : ∀ (f : NForest) (st : St),
    (∀ p ∈ top_elem_ids f, st.charNum p = none) → child_char_sum st f = 0
  | .nil, _, _ => rfl
  | .cons (.text j s) ts, st, h => by
      simp only [top_elem_ids] at h
      simp only [child_char_sum]
      exact child_char_sum_zero ts st h
  | .cons (.elem j nm a cs) ts, st, h => by
      simp only [top_elem_ids, List.mem_cons] at h
      simp only [child_char_sum, h j (Or.inl rfl), Option.getD_none]
      rw [child_char_sum_zero ts st (fun p hp => h p (Or.inr hp))]
      omega

theorem top_elem_mem_elem_ids : ∀ (f : NForest), ∀ p ∈ top_elem_ids f, p ∈ elem_ids_forest f
  | .nil => by simp [top_elem_ids]
  | .cons (.text j s) ts => by
      simp only [top_elem_ids, elem_ids_forest, elem_ids, List.nil_append]
      exact fun p hp => top_elem_mem_elem_ids ts p hp
  | .cons (.elem j nm a cs) ts => by
      intro p hp
      simp only [top_elem_ids, List.mem_cons] at hp
      simp only [elem_ids_forest, elem_ids, List.mem_append, List.mem_cons]
      rcases hp with rfl | hp
      · exact Or.inl (Or.inl rfl)
      · exact Or.inr (top_elem_mem_elem_ids ts p hp)

mutual
theorem ccv_main : ∀ (t : NTree) (st : St), (all_ids t).Nodup →
    (∀ j ∈ elem_ids t, st.charNum j = none) →
    ∃ st', count_chars_var t st = Except.ok st' ∧
      (∀ j, j ∉ elem_ids t → st'.charNum j = st.charNum j) ∧
      (t.isElem = true → (st'.charNum t.idOf).isSome = true) ∧
      chars_claim st' t
  | .text i0 c0, st, _, _ => by
      refine ⟨st, by simp [count_chars_var], fun j _ => rfl, by simp [NTree.isElem], ?_⟩
      intro j s hsub
      simp only [subtree_of] at hsub
      split_ifs at hsub with hij
      injection hsub with hsub
      subst hsub
      intro i2 nm2 a2 cs2 hs v hv
      injection hs
  | .elem i nm a cs, st, hnd, hfr => by
      have hnd' : (all_ids_forest cs).Nodup := by
        simp only [all_ids, List.nodup_cons] at hnd
        exact hnd.2
      have hni : i ∉ all_ids_forest cs := by
        simp only [all_ids, List.nodup_cons] at hnd
        exact hnd.1
      have hfr' : ∀ j ∈ elem_ids_forest cs, st.charNum j = none := by
        intro j hj
        exact hfr j (by simp only [elem_ids, List.mem_cons]; exact Or.inr hj)
      by_cases hig : is_ignorable nm = true
      · refine ⟨st.setCharNum i 0, by simp [count_chars_var, hig], ?_, ?_, ?_⟩
        · intro j hj
          have hji : j ≠ i := by
            simp only [elem_ids, List.mem_cons, not_or] at hj
            exact hj.1
          simp [St.setCharNum, hji]
        · intro _
          simp [St.setCharNum, NTree.idOf]
        · intro j s hsub
          simp only [subtree_of] at hsub
          split_ifs at hsub with hij
          · injection hsub with hsub
            subst hsub
            intro i2 nm2 a2 cs2 hs v hv
            injection hs with h1 h2 h3 h4
            subst h1
            subst h4
            simp only [St.setCharNum, if_pos] at hv
            injection hv with hv
            have htopnone : ∀ p ∈ top_elem_ids cs, (st.setCharNum i 0).charNum p = none := by
              intro p hp
              have hpe : p ∈ elem_ids_forest cs := top_elem_mem_elem_ids cs p hp
              have hpi : p ≠ i := fun h =>
                hni (h ▸ elem_ids_subset_all_forest cs p hpe)
              simp only [St.setCharNum, if_neg hpi]
              exact hfr' p hpe
            rw [child_char_sum_zero cs _ htopnone]
            rw [← hv]
            exact ⟨le_refl 0, fun _ _ => rfl⟩
          · intro i2 nm2 a2 cs2 hs v hv
            subst hs
            have hjid : NTree.idOf (.elem i2 nm2 a2 cs2) = j := subtree_of_id_forest cs j _ hsub
            simp only [NTree.idOf] at hjid
            subst hjid
            have hje : i2 ∈ elem_ids_forest cs := subtree_elem_mem_forest cs i2 i2 nm2 a2 cs2 hsub
            have hji : i2 ≠ i := by
              intro h
              exact hni (h ▸ elem_ids_subset_all_forest cs i2 hje)
            simp only [St.setCharNum, if_neg hji] at hv
            rw [hfr' i2 hje] at hv
            exact Option.noConfusion hv
      · obtain ⟨st1, he1, hframe1, htops1, hclaims1⟩ := ccv_main_forest cs st hnd' hfr'
        have hspec := char_sum_sub_spec cs st1
          ((joinLen (strippedT (.elem i nm a cs)) : Nat) : Int) htops1
        refine ⟨st1.setCharNum i (child_char_sum st1 cs +
          ((joinLen (strippedT (.elem i nm a cs)) : Int) - (sub_len cs : Int))), ?_, ?_, ?_, ?_⟩
        · simp only [count_chars_var]
          rw [if_neg hig, he1, except_ok_bind, hspec, except_ok_bind]
        · intro j hj
          simp only [elem_ids, List.mem_cons, not_or] at hj
          simp only [St.setCharNum, if_neg hj.1]
          exact hframe1 j hj.2
        · intro _
          simp [St.setCharNum, NTree.idOf]
        · intro j s hsub
          simp only [subtree_of] at hsub
          split_ifs at hsub with hij
          · injection hsub with hsub
            subst hsub
            intro i2 nm2 a2 cs2 hs v hv
            injection hs with h1 h2 h3 h4
            subst h1
            subst h4
            simp only [St.setCharNum, if_pos] at hv
            injection hv with hv
            have htci : ∀ p ∈ top_elem_ids cs,
                (st1.setCharNum i (child_char_sum st1 cs +
                  ((joinLen (strippedT (.elem i nm a cs)) : Int) - (sub_len cs : Int)))).charNum p
                  = st1.charNum p := by
              intro p hp
              have hpe : p ∈ elem_ids_forest cs := top_elem_mem_elem_ids cs p hp
              have hpi : p ≠ i := fun h =>
                hni (h ▸ elem_ids_subset_all_forest cs p hpe)
              simp only [St.setCharNum, if_neg hpi]
            rw [child_char_sum_congr cs _ st1 htci]
            have hle := sub_len_le_joinLen cs
            have hstr : strippedT (.elem i nm a cs) = strippedF cs := rfl
            rw [hstr] at hv
            constructor
            · omega
            · intro hb hc
              have heq := sub_len_eq_of_blank cs hb hc
              omega
          · have hcl := hclaims1 j s hsub
            have hagree : ∀ x ∈ all_ids s, st1.charNum x =
                (st1.setCharNum i (child_char_sum st1 cs +
                  ((joinLen (strippedT (.elem i nm a cs)) : Int) - (sub_len cs : Int)))).charNum x := by
              intro x hx
              have hxa : x ∈ all_ids_forest cs := subtree_all_sub_forest cs j s hsub x hx
              have hxi : x ≠ i := fun h => hni (h ▸ hxa)
              simp only [St.setCharNum, if_neg hxi]
            exact chars_claim_sub_congr s st1 _ hagree hcl
theorem ccv_main_forest : ∀ (f : NForest) (st : St), (all_ids_forest f).Nodup →
    (∀ j ∈ elem_ids_forest f, st.charNum j = none) →
    ∃ st', count_chars_var_forest f st = Except.ok st' ∧
      (∀ j, j ∉ elem_ids_forest f → st'.charNum j = st.charNum j) ∧
      (∀ p ∈ top_elem_ids f, (st'.charNum p).isSome = true) ∧
      chars_claim_forest st' f
  | .nil, st, _, _ => by
      refine ⟨st, by simp [count_chars_var_forest], fun j _ => rfl, by simp [top_elem_ids], ?_⟩
      intro j s hsub
      cases hsub
  | .cons (.text j0 s0) ts, st, hnd, hfr => by
      have hnd2 : (all_ids_forest ts).Nodup := by
        simp only [all_ids_forest, all_ids, List.singleton_append, List.nodup_cons] at hnd
        exact hnd.2
      have hfr2 : ∀ j ∈ elem_ids_forest ts, st.charNum j = none := by
        intro j hj
        exact hfr j (by simp only [elem_ids_forest, elem_ids, List.nil_append]; exact hj)
      obtain ⟨st', he, hframe, htops, hclaims⟩ := ccv_main_forest ts st hnd2 hfr2
      refine ⟨st', by simp only [count_chars_var_forest]; exact he, ?_, ?_, ?_⟩
      · intro j hj
        apply hframe
        simpa [elem_ids_forest, elem_ids] using hj
      · intro p hp
        exact htops p (by simpa [top_elem_ids] using hp)
      · intro j s hsub
        simp only [subtree_of_forest, subtree_of] at hsub
        split_ifs at hsub with h0
        · injection hsub with hsub
          subst hsub
          intro i2 nm2 a2 cs2 hs
          injection hs
        · exact hclaims j s hsub
  | .cons (.elem j0 nm0 a0 cs0) ts, st, hnd, hfr => by
      have hnd0 : (all_ids (.elem j0 nm0 a0 cs0) ++ all_ids_forest ts).Nodup := by
        simpa only [all_ids_forest] using hnd
      rw [List.nodup_append] at hnd0
      obtain ⟨hnd1, hnd2, hdisj⟩ := hnd0
      have hfr1 : ∀ j ∈ elem_ids (.elem j0 nm0 a0 cs0), st.charNum j = none := by
        intro j hj
        exact hfr j (by simp only [elem_ids_forest, List.mem_append]; exact Or.inl hj)
      obtain ⟨st1, he1, hframe1, hsome1, hclaims1⟩ := ccv_main (.elem j0 nm0 a0 cs0) st hnd1 hfr1
      have hfr2 : ∀ j ∈ elem_ids_forest ts, st1.charNum j = none := by
        intro j hj
        have hj1 : j ∉ elem_ids (.elem j0 nm0 a0 cs0) := by
          intro hmem
          exact hdisj (elem_ids_subset_all _ j hmem) (elem_ids_subset_all_forest ts j hj)
        rw [hframe1 j hj1]
        exact hfr j (by simp only [elem_ids_forest, List.mem_append]; exact Or.inr hj)
      obtain ⟨st2, he2, hframe2, htops2, hclaims2⟩ := ccv_main_forest ts st1 hnd2 hfr2
      refine ⟨st2, ?_, ?_, ?_, ?_⟩
      · simp only [count_chars_var_forest]
        rw [he1, except_ok_bind]
        exact he2
      · intro j hj
        simp only [elem_ids_forest, List.mem_append, not_or] at hj
        rw [hframe2 j hj.2, hframe1 j hj.1]
      · intro p hp
        simp only [top_elem_ids, List.mem_cons] at hp
        rcases hp with rfl | hp
        · have hj0 : p ∉ elem_ids_forest ts := by
            intro hmem
            exact hdisj (by simp [all_ids]) (elem_ids_subset_all_forest ts p hmem)
          rw [hframe2 p hj0]
          exact hsome1 rfl
        · exact htops2 p hp
      · intro j s hsub
        simp only [subtree_of_forest] at hsub
        cases hh : subtree_of (.elem j0 nm0 a0 cs0) j with
        | some s0 =>
            rw [hh] at hsub
            injection hsub with hsub
            subst hsub
            have hagree : ∀ x ∈ all_ids s0, st1.charNum x = st2.charNum x := by
              intro x hx
              have hxa : x ∈ all_ids (.elem j0 nm0 a0 cs0) := subtree_all_sub _ j s0 hh x hx
              have hxn : x ∉ elem_ids_forest ts := fun hmem =>
                hdisj hxa (elem_ids_subset_all_forest ts x hmem)
              exact (hframe2 x hxn).symm
            exact chars_claim_sub_congr s0 st1 st2 hagree (hclaims1 j s0 hh)
        | none =>
            rw [hh] at hsub
            exact hclaims2 j s hsub
end

/-- C9, counterexample to the equality clause: after the Simplified
    count_chars on a div with no direct text and two text-bearing
    paragraph children, the div's char-number is 5 — the children's 2 + 2
    plus the single-space join separator between their stripped strings —
    strictly above the children's sum although no text sits directly under
    the div. -/
theorem c9_counterexample_join_separator_breaks_equality :
    (count_chars_var c9_doc St.empty).map
      (fun st => (st.charNum 0, st.charNum 1, st.charNum 2)) =
      Except.ok (some 5, some 2, some 2)
    ∧ direct_text_blank (.cons (.elem 1 ("p") [] (.cons (.text 3 ("ab")) .nil))
        (.cons (.elem 2 ("p") [] (.cons (.text 4 ("cd")) .nil)) .nil)) = true
    ∧ texty_child_count (.cons (.elem 1 ("p") [] (.cons (.text 3 ("ab")) .nil))
        (.cons (.elem 2 ("p") [] (.cons (.text 4 ("cd")) .nil)) .nil)) = 2
    ∧ (5 : Int) ≠ 2 + 2 := ⟨rfl, rfl, rfl, by norm_num⟩

/-- C9 amended: on a tree with distinct node ids, starting from a state
    with no char-number set, the Simplified count_chars succeeds and every
    annotated element's char-number is at least the sum of its element
    children's char-numbers — with equality when the node has no direct
    text besides its children's AND at most one child subtree carries any
    text (each further text-bearing child adds a join separator, which is
    what breaks the claim's unconditional equality). -/
theorem c9_amended_char_sums (t : NTree) (st : St) (hnd : (all_ids t).Nodup)
    (hfr : ∀ j ∈ elem_ids t, st.charNum j = none) :
    ∃ st', count_chars_var t st = Except.ok st' ∧ chars_claim st' t := by
  obtain ⟨st', he, _, _, hc⟩ := ccv_main t st hnd hfr
  exact ⟨st', he, hc⟩

/-- Witness for the C9 amended theorem on the concrete two-paragraph div. -/
theorem c9_amended_char_sums_witness :
    (all_ids c9_doc).Nodup ∧
    (∃ st', count_chars_var c9_doc St.empty = Except.ok st' ∧ chars_claim st' c9_doc) :=
  ⟨by decide, c9_amended_char_sums c9_doc St.empty (by decide) (fun j _ => rfl)⟩

mutual
theorem set_mark_mark : ∀ (m : Int) (t : NTree) (st : St) (j : Nat),
    (set_mark m t st).mark j = if j ∈ elem_ids t then some m else st.mark j
  | m, .text i0 c0, st, j => by
      simp [set_mark, elem_ids]
  | m, .elem i nm a cs, st, j => by
      simp only [set_mark]
      rw [set_mark_forest_mark m cs (st.setMark i m) j]
      by_cases hf : j ∈ elem_ids_forest cs
      · rw [if_pos hf, if_pos (by simp only [elem_ids, List.mem_cons]; exact Or.inr hf)]
      · rw [if_neg hf]
        by_cases hji : j = i
        · subst hji
          simp [St.setMark, elem_ids]
        · simp only [St.setMark, if_neg hji]
          rw [if_neg (by simp only [elem_ids, List.mem_cons, not_or]; exact ⟨hji, hf⟩)]
theorem set_mark_forest_mark : ∀ (m : Int) (f : NForest) (st : St) (j : Nat),
    (set_mark_forest m f st).mark j = if j ∈ elem_ids_forest f then some m else st.mark j
  | m, .nil, st, j => by simp [set_mark_forest, elem_ids_forest]
  | m, .cons (.text i0 c0) ts, st, j => by
      simp only [set_mark_forest]
      rw [set_mark_forest_mark m ts st j]
      simp [elem_ids_forest, elem_ids]
  | m, .cons (.elem i nm a cs) ts, st, j => by
      simp only [set_mark_forest]
      rw [set_mark_forest_mark m ts (set_mark m (.elem i nm a cs) st) j]
      by_cases hf : j ∈ elem_ids_forest ts
      · rw [if_pos hf,
          if_pos (by simp only [elem_ids_forest, List.mem_append]; exact Or.inr hf)]
      · rw [if_neg hf, set_mark_mark m (.elem i nm a cs) st j]
        by_cases ht : j ∈ elem_ids (.elem i nm a cs)
        · rw [if_pos ht,
            if_pos (by simp only [elem_ids_forest, List.mem_append]; exact Or.inl ht)]
        · rw [if_neg ht,
            if_neg (by simp only [elem_ids_forest, List.mem_append, not_or]; exact ⟨ht, hf⟩)]
end

theorem walk_mark2_spec : ∀ (doc : NTree) (l : List Nat) (st st' : St),
    walk_mark2 doc l st = Except.ok st' →
    ∃ pre hd rest, l = pre ++ hd :: rest ∧
      (∀ a ∈ pre, html_name_b doc a = false) ∧ html_name_b doc hd = true ∧
      (∀ a ∈ pre, st'.mark a = some 2) ∧
      (∀ j, j ∉ pre → st'.mark j = st.mark j)
  | doc, [], st, st', he => by cases he
  | doc, a :: rest, st, st', he => by
      simp only [walk_mark2] at he
      cases hn : name_of doc a with
      | none =>
          simp only [hn] at he
          cases he
      | some nm =>
        simp only [hn] at he
        by_cases hh : lower_str nm = ("html")
        · rw [if_pos hh] at he
          injection he with he
          subst he
          refine ⟨[], a, rest, by simp, by simp, ?_, by simp, fun j _ => rfl⟩
          simp [html_name_b, hn, hh]
        · rw [if_neg hh] at he
          obtain ⟨pre', hd, rest', hl, hpre', hhd, hm2, hfr⟩ :=
            walk_mark2_spec doc rest (st.setMark a 2) st' he
          refine ⟨a :: pre', hd, rest', by rw [hl]; rfl, ?_, hhd, ?_, ?_⟩
          · intro x hx
            rcases List.mem_cons.mp hx with rfl | hx
            · simp [html_name_b, hn, hh]
            · exact hpre' x hx
          · intro x hx
            rcases List.mem_cons.mp hx with rfl | hx
            · by_cases hxp : x ∈ pre'
              · exact hm2 x hxp
              · rw [hfr x hxp]
                simp [St.setMark]
            · exact hm2 x hx
          · intro j hj
            simp only [List.mem_cons, not_or] at hj
            rw [hfr j hj.2]
            simp [St.setMark, hj.1]

theorem walk_threshold_spec : ∀ (doc : NTree) (l : List Nat) (thr : ℚ) (st st' : St) (thr' : ℚ),
    walk_threshold doc l thr st = Except.ok (st', thr') →
    ∃ pre hd rest, l = pre ++ hd :: rest ∧
      (∀ a ∈ pre, html_name_b doc a = false) ∧ html_name_b doc hd = true ∧
      (∀ a ∈ pre, st'.mark a = some 2) ∧
      (∀ j, j ∉ pre → st'.mark j = st.mark j)
  | doc, [], thr, st, st', thr', he => by cases he
  | doc, a :: rest, thr, st, st', thr', he => by
      simp only [walk_threshold] at he
      cases hn : name_of doc a with
      | none =>
          simp only [hn] at he
          cases he
      | some nm =>
        simp only [hn] at he
        by_cases hh : lower_str nm = ("html")
        · rw [if_pos hh] at he
          injection he with he
          have he1 : st = st' := congrArg Prod.fst he
          subst he1
          refine ⟨[], a, rest, by simp, by simp, ?_, by simp, fun j _ => rfl⟩
          simp [html_name_b, hn, hh]
        · rw [if_neg hh] at he
          cases htd : st.textDensity a with
          | none => simp [htd, getAttr, except_error_bind] at he
          | some td =>
            rw [htd] at he
            simp only [getAttr, except_ok_bind] at he
            obtain ⟨pre', hd, rest', hl, hpre', hhd, hm2, hfr⟩ :=
              walk_threshold_spec doc rest (min thr td) (st.setMark a 2) st' thr' he
            refine ⟨a :: pre', hd, rest', by rw [hl]; rfl, ?_, hhd, ?_, ?_⟩
            · intro x hx
              rcases List.mem_cons.mp hx with rfl | hx
              · simp [html_name_b, hn, hh]
              · exact hpre' x hx
            · intro x hx
              rcases List.mem_cons.mp hx with rfl | hx
              · by_cases hxp : x ∈ pre'
                · exact hm2 x hxp
                · rw [hfr x hxp]
                  simp [St.setMark]
              · exact hm2 x hx
            · intro j hj
              simp only [List.mem_cons, not_or] at hj
              rw [hfr j hj.2]
              simp [St.setMark, hj.1]

mutual
theorem subtree_mem_all : ∀ (t : NTree) (r : Nat) (sub : NTree),
    subtree_of t r = some sub → r ∈ all_ids t
  | .elem i nm a cs, r, sub, h => by
      simp only [subtree_of] at h
      split_ifs at h with hir
      · simp [all_ids, hir.symm]
      · simp only [all_ids, List.mem_cons]
        exact Or.inr (subtree_mem_all_forest cs r sub h)
  | .text i c, r, sub, h => by
      simp only [subtree_of] at h
      split_ifs at h with hir
      · simp [all_ids, hir.symm]
theorem subtree_mem_all_forest : ∀ (f : NForest) (r : Nat) (sub : NTree),
    subtree_of_forest f r = some sub → r ∈ all_ids_forest f
  | .cons t ts, r, sub, h => by
      simp only [subtree_of_forest] at h
      simp only [all_ids_forest, List.mem_append]
      cases hh : subtree_of t r with
      | some s0 =>
          exact Or.inl (subtree_mem_all t r s0 hh)
      | none =>
          rw [hh] at h
          exact Or.inr (subtree_mem_all_forest ts r sub h)
end

mutual
theorem subtree_of_mem : ∀ (t : NTree) (r : Nat), r ∈ all_ids t → (subtree_of t r).isSome = true
  | .elem i nm a cs, r, hm => by
      simp only [all_ids, List.mem_cons] at hm
      simp only [subtree_of]
      by_cases hir : i = r
      · simp [hir]
      · rw [if_neg hir]
        rcases hm with h | h
        · exact absurd h.symm hir
        · exact subtree_of_mem_forest cs r h
  | .text i c, r, hm => by
      simp only [all_ids, List.mem_singleton] at hm
      simp [subtree_of, hm.symm]
theorem subtree_of_mem_forest : ∀ (f : NForest) (r : Nat),
    r ∈ all_ids_forest f → (subtree_of_forest f r).isSome = true
  | .cons t ts, r, hm => by
      simp only [all_ids_forest, List.mem_append] at hm
      simp only [subtree_of_forest]
      cases hh : subtree_of t r with
      | some s0 => simp
      | none =>
          rcases hm with h | h
          · have := subtree_of_mem t r h
            rw [hh] at this
            cases this
          · exact subtree_of_mem_forest ts r h
end

mutual
theorem anc_sub_all : ∀ (t : NTree) (j : Nat) (l : List Nat),
    anc_ids t j = some l → j ∈ all_ids t
  | .elem i nm a cs, j, l, h => by
      simp only [anc_ids] at h
      split_ifs at h with hij
      · simp [all_ids, hij.symm]
      · simp only [all_ids, List.mem_cons]
        cases hf : anc_ids_forest cs j with
        | none => rw [hf] at h; cases h
        | some l0 => exact Or.inr (anc_sub_all_forest cs j l0 hf)
  | .text i c, j, l, h => by
      simp only [anc_ids] at h
      split_ifs at h with hij
      · simp [all_ids, hij.symm]
theorem anc_sub_all_forest : ∀ (f : NForest) (j : Nat) (l : List Nat),
    anc_ids_forest f j = some l → j ∈ all_ids_forest f
  | .cons t ts, j, l, h => by
      simp only [anc_ids_forest] at h
      simp only [all_ids_forest, List.mem_append]
      cases hh : anc_ids t j with
      | some l0 => exact Or.inl (anc_sub_all t j l0 hh)
      | none =>
          rw [hh] at h
          exact Or.inr (anc_sub_all_forest ts j l h)
end

mutual
theorem anc_of_mem : ∀ (t : NTree) (j : Nat), j ∈ all_ids t → (anc_ids t j).isSome = true
  | .elem i nm a cs, j, hm => by
      simp only [all_ids, List.mem_cons] at hm
      simp only [anc_ids]
      by_cases hij : i = j
      · simp [hij]
      · rw [if_neg hij]
        rcases hm with h | h
        · exact absurd h.symm hij
        · have := anc_of_mem_forest cs j h
          cases hf : anc_ids_forest cs j with
          | none => rw [hf] at this; cases this
          | some l0 => simp
  | .text i c, j, hm => by
      simp only [all_ids, List.mem_singleton] at hm
      simp [anc_ids, hm.symm]
theorem anc_of_mem_forest : ∀ (f : NForest) (j : Nat),
    j ∈ all_ids_forest f → (anc_ids_forest f j).isSome = true
  | .cons t ts, j, hm => by
      simp only [all_ids_forest, List.mem_append] at hm
      simp only [anc_ids_forest]
      cases hh : anc_ids t j with
      | some l0 => simp
      | none =>
          rcases hm with h | h
          · have := anc_of_mem t j h
            rw [hh] at this
            cases this
          · exact anc_of_mem_forest ts j h
end

mutual
theorem anc_mem_elem : ∀ (t : NTree) (j : Nat) (l : List Nat),
    anc_ids t j = some l → ∀ a ∈ l, a ∈ elem_ids t
  | .elem i nm a0 cs, j, l, h, a, ha => by
      simp only [anc_ids] at h
      split_ifs at h with hij
      · injection h with h
        subst h
        cases ha
      · cases hf : anc_ids_forest cs j with
        | none => rw [hf] at h; cases h
        | some l0 =>
            rw [hf] at h
            injection h with h
            subst h
            simp only [elem_ids, List.mem_cons]
            rcases List.mem_append.mp ha with hx | hx
            · exact Or.inr (anc_mem_elem_forest cs j l0 hf a hx)
            · simp only [List.mem_singleton] at hx
              exact Or.inl hx
  | .text i c, j, l, h, a, ha => by
      simp only [anc_ids] at h
      split_ifs at h with hij
      · injection h with h
        subst h
        cases ha
theorem anc_mem_elem_forest : ∀ (f : NForest) (j : Nat) (l : List Nat),
    anc_ids_forest f j = some l → ∀ a ∈ l, a ∈ elem_ids_forest f
  | .cons t ts, j, l, h, a, ha => by
      simp only [anc_ids_forest] at h
      simp only [elem_ids_forest, List.mem_append]
      cases hh : anc_ids t j with
      | some l0 =>
          rw [hh] at h
          injection h with h
          subst h
          exact Or.inl (anc_mem_elem t j l0 hh a ha)
      | none =>
          rw [hh] at h
          exact Or.inr (anc_mem_elem_forest ts j l h a ha)
end

/-- The ancestor list of any node of a rooted document either is empty
    (the node is the root) or ends with the root id, and its other entries
    are element ids of the root's children forest. -/
theorem anc_ends_at_root (rid : Nat) (nm : String) (a : List (String × String))
    (cs : NForest) (j : Nat) (l : List Nat)
    (h : anc_ids (.elem rid nm a cs) j = some l) :
    l = [] ∨ ∃ l0, l = l0 ++ [rid] ∧ ∀ x ∈ l0, x ∈ elem_ids_forest cs := by
  simp only [anc_ids] at h
  split_ifs at h with hij
  · injection h with h
    exact Or.inl h.symm
  · cases hf : anc_ids_forest cs j with
    | none => rw [hf] at h; cases h
    | some l0 =>
        rw [hf] at h
        injection h with h
        subst h
        exact Or.inr ⟨l0, rfl, anc_mem_elem_forest cs j l0 hf⟩

theorem split_html_last {pre rest l0 : List Nat} {rid : Nat}
    (h : pre ++ rid :: rest = l0 ++ [rid]) (hnin : rid ∉ l0) : rest = [] := by
  rcases List.eq_nil_or_concat rest with rfl | ⟨rest', x, rfl⟩
  · rfl
  · exfalso
    have h2 : (pre ++ rid :: rest') ++ [x] = l0 ++ [rid] := by
      rw [← h]
      simp
    have hlen : (pre ++ rid :: rest').length = l0.length := by
      have := congrArg List.length h2
      simp at this
      simp
      omega
    obtain ⟨h3, _⟩ := List.append_inj h2 hlen
    apply hnin
    rw [← h3]
    exact List.mem_append_right pre (List.mem_cons_self rid rest')

mutual
theorem anc_split : ∀ (t : NTree) (r : Nat) (sub : NTree) (L : List Nat) (j : Nat),
    (all_ids t).Nodup → subtree_of t r = some sub → anc_ids t r = some L →
    j ∈ elem_ids sub →
    ∃ inner, anc_ids t j = some (inner ++ L) ∧ ∀ x ∈ inner, x ∈ elem_ids sub
  | .elem i nm a cs, r, sub, L, j, hnd, hsub, hanc, hj => by
      simp only [subtree_of] at hsub
      simp only [anc_ids] at hanc
      split_ifs at hsub hanc with hir
      · injection hsub with hsub
        injection hanc with hanc
        subst hanc
        have hja : j ∈ all_ids (.elem i nm a cs) := by
          rw [hsub]
          exact elem_ids_subset_all _ j hj
        have hsome := anc_of_mem _ j hja
        cases hl : anc_ids (.elem i nm a cs) j with
        | none => rw [hl] at hsome; cases hsome
        | some lj =>
            refine ⟨lj, ?_, ?_⟩
            · rw [List.append_nil]
            · intro x hx
              rw [← hsub] at hj ⊢
              exact anc_mem_elem _ j lj hl x hx
      · cases hf : anc_ids_forest cs r with
        | none => rw [hf] at hanc; cases hanc
        | some L0 =>
            rw [hf] at hanc
            injection hanc with hanc
            subst hanc
            have hnd' : (all_ids_forest cs).Nodup := by
              simp only [all_ids, List.nodup_cons] at hnd
              exact hnd.2
            have hni : i ∉ all_ids_forest cs := by
              simp only [all_ids, List.nodup_cons] at hnd
              exact hnd.1
            obtain ⟨inner, hin, hmem⟩ := anc_split_forest cs r sub L0 j hnd' hsub hf hj
            have hja : j ∈ all_ids_forest cs := by
              have h1 : j ∈ all_ids sub := elem_ids_subset_all sub j hj
              exact subtree_all_sub_forest cs r sub hsub j h1
            have hij2 : i ≠ j := fun h => hni (h ▸ hja)
            refine ⟨inner, ?_, hmem⟩
            simp only [anc_ids, if_neg hij2, hin]
            simp [List.append_assoc]
  | .text i c, r, sub, L, j, hnd, hsub, hanc, hj => by
      simp only [subtree_of] at hsub
      split_ifs at hsub with hir
      · injection hsub with hsub
        rw [← hsub] at hj
        cases hj
theorem anc_split_forest : ∀ (f : NForest) (r : Nat) (sub : NTree) (L : List Nat) (j : Nat),
    (all_ids_forest f).Nodup → subtree_of_forest f r = some sub →
    anc_ids_forest f r = some L → j ∈ elem_ids sub →
    ∃ inner, anc_ids_forest f j = some (inner ++ L) ∧ ∀ x ∈ inner, x ∈ elem_ids sub
  | .cons t ts, r, sub, L, j, hnd, hsub, hanc, hj => by
      have hnd0 : (all_ids t ++ all_ids_forest ts).Nodup := by
        simpa only [all_ids_forest] using hnd
      rw [List.nodup_append] at hnd0
      obtain ⟨hnd1, hnd2, hdisj⟩ := hnd0
      simp only [subtree_of_forest] at hsub
      simp only [anc_ids_forest] at hanc
      cases hh : subtree_of t r with
      | some s0 =>
          rw [hh] at hsub
          injection hsub with hsub
          subst hsub
          have hra : r ∈ all_ids t := subtree_mem_all t r s0 hh
          have hrsome := anc_of_mem t r hra
          cases hl : anc_ids t r with
          | none => rw [hl] at hrsome; cases hrsome
          | some L1 =>
              rw [hl] at hanc
              injection hanc with hanc
              subst hanc
              obtain ⟨inner, hin, hmem⟩ := anc_split t r s0 L1 j hnd1 hh hl hj
              simp only [anc_ids_forest, hin]
              exact ⟨inner, rfl, hmem⟩
      | none =>
          rw [hh] at hsub
          have hrn : r ∉ all_ids t := by
            intro hmem
            have := subtree_of_mem t r hmem
            rw [hh] at this
            cases this
          have hanct : anc_ids t r = none := by
            cases hl : anc_ids t r with
            | none => rfl
            | some L1 => exact absurd (anc_sub_all t r L1 hl) hrn
          rw [hanct] at hanc
          obtain ⟨inner, hin, hmem⟩ := anc_split_forest ts r sub L j hnd2 hsub hanc hj
          have hja : j ∈ all_ids_forest ts := by
            have h1 : j ∈ all_ids sub := elem_ids_subset_all sub j hj
            exact subtree_all_sub_forest ts r sub hsub j h1
          have hjn : j ∉ all_ids t := fun hmem2 => hdisj hmem2 hja
          have hanctj : anc_ids t j = none := by
            cases hl : anc_ids t j with
            | none => rfl
            | some L1 => exact absurd (anc_sub_all t j L1 hl) hjn
          simp only [anc_ids_forest, hanctj]
          exact ⟨inner, hin, hmem⟩
end

/-- Core preservation step for the marking walks: marking a located
    subtree 1 and then setting every walked non-html ancestor to 2 keeps
    every 1-marked node's strict non-html ancestors marked 1 or 2. -/
theorem good_marks_after_target (rid : Nat) (nm0 : String)
    (a0 : List (String × String)) (cs0 : NForest)
    (hnd : (all_ids (NTree.elem rid nm0 a0 cs0)).Nodup)
    (hroot : only_root_html (NTree.elem rid nm0 a0 cs0))
    (st st' : St) (tid : Nat) (tsub : NTree) (anc : List Nat)
    (hsub : subtree_of (NTree.elem rid nm0 a0 cs0) tid = some tsub)
    (hanc : anc_ids (NTree.elem rid nm0 a0 cs0) tid = some anc)
    (hgood : good_marks (NTree.elem rid nm0 a0 cs0) st)
    (pre : List Nat) (hd : Nat) (rest : List Nat)
    (hldec : anc = pre ++ hd :: rest)
    (hprehtml : ∀ a ∈ pre, html_name_b (NTree.elem rid nm0 a0 cs0) a = false)
    (hhd : html_name_b (NTree.elem rid nm0 a0 cs0) hd = true)
    (hmarks2 : ∀ a ∈ pre, st'.mark a = some 2)
    (hframe : ∀ j, j ∉ pre → st'.mark j = (set_mark 1 tsub st).mark j) :
    good_marks (NTree.elem rid nm0 a0 cs0) st' := by
  have hhdroot : hd = rid := by
    have hmem : hd ∈ anc := by rw [hldec]; exact List.mem_append_right pre (List.mem_cons_self hd rest)
    have helem : hd ∈ elem_ids (NTree.elem rid nm0 a0 cs0) :=
      anc_mem_elem _ tid anc hanc hd hmem
    exact hroot hd (elem_ids_subset_all _ hd helem) hhd
  rw [hhdroot] at hldec hhd
  have hrest : rest = [] := by
    rcases anc_ends_at_root rid nm0 a0 cs0 tid anc hanc with h0 | ⟨l0, hl0, hl0m⟩
    · rw [h0] at hldec
      cases pre <;> simp at hldec
    · have hnin : rid ∉ l0 := by
        intro hmem
        have h1 : rid ∈ all_ids_forest cs0 :=
          elem_ids_subset_all_forest cs0 rid (hl0m rid hmem)
        simp only [all_ids, List.nodup_cons] at hnd
        exact hnd.1 h1
      exact split_html_last (by rw [← hldec, hl0]) hnin
  subst hrest
  intro i li hm1 hanci a ha hah
  have hipre : i ∉ pre := by
    intro hmem
    rw [hmarks2 i hmem] at hm1
    injection hm1 with hm1
    cases hm1
  rw [hframe i hipre, set_mark_mark] at hm1
  have hmarka : ∀ x, x ∈ elem_ids tsub ∨ st.mark x = some 1 ∨ st.mark x = some 2 →
      st'.mark x = some 1 ∨ st'.mark x = some 2 := by
    intro x hx
    by_cases hxp : x ∈ pre
    · exact Or.inr (hmarks2 x hxp)
    · rw [hframe x hxp, set_mark_mark]
      by_cases hxt : x ∈ elem_ids tsub
      · rw [if_pos hxt]
        exact Or.inl rfl
      · rw [if_neg hxt]
        rcases hx with hx | hx
        · exact absurd hx hxt
        · exact hx
  by_cases hit : i ∈ elem_ids tsub
  · obtain ⟨inner, hin, hinner⟩ :=
      anc_split (NTree.elem rid nm0 a0 cs0) tid tsub anc i hnd hsub hanc hit
    rw [hanci] at hin
    injection hin with hin
    subst hin
    rcases List.mem_append.mp ha with hx | hx
    · exact hmarka a (Or.inl (hinner a hx))
    · rw [hldec] at hx
      rcases List.mem_append.mp hx with hx | hx
      · exact Or.inr (hmarks2 a hx)
      · simp only [List.mem_singleton] at hx
        subst hx
        rw [hhd] at hah
        cases hah
  · rw [if_neg hit] at hm1
    have hold := hgood i li hm1 hanci a ha hah
    exact hmarka a (Or.inr hold)

theorem get_threshold_good (rid : Nat) (nm0 : String) (a0 : List (String × String))
    (cs0 : NForest) (fuel : Nat) (sub : NTree) (maxds : ℚ) (st st' : St) (thr : ℚ)
    (hnd : (all_ids (NTree.elem rid nm0 a0 cs0)).Nodup)
    (hroot : only_root_html (NTree.elem rid nm0 a0 cs0))
    (hgood : good_marks (NTree.elem rid nm0 a0 cs0) st)
    (hrun : get_threshold fuel (NTree.elem rid nm0 a0 cs0) sub maxds st =
      Except.ok (st', thr)) :
    good_marks (NTree.elem rid nm0 a0 cs0) st' := by
  simp only [get_threshold] at hrun
  cases hs : search_tag fuel (NTree.elem rid nm0 a0 cs0) sub maxds st with
  | none =>
      simp only [hs] at hrun
      cases hrun
  | some tid =>
    simp only [hs] at hrun
    cases htd : st.textDensity tid with
    | none => simp [htd, getAttr, except_error_bind] at hrun
    | some td0 =>
      rw [htd] at hrun
      simp only [getAttr, except_ok_bind] at hrun
      cases hsub : subtree_of (NTree.elem rid nm0 a0 cs0) tid with
      | none => simp [hsub, getNode, except_error_bind] at hrun
      | some tsub =>
        rw [hsub] at hrun
        simp only [getNode, except_ok_bind] at hrun
        cases hanc : anc_ids (NTree.elem rid nm0 a0 cs0) tid with
        | none => simp [hanc, getNode, except_error_bind] at hrun
        | some anc =>
          rw [hanc] at hrun
          simp only [getNode, except_ok_bind] at hrun
          obtain ⟨pre, hd, rest, hldec, hpre, hhd, hm2, hfr⟩ :=
            walk_threshold_spec _ anc td0 (set_mark 1 tsub st) st' thr hrun
          exact good_marks_after_target rid nm0 a0 cs0 hnd hroot st st' tid tsub anc
            hsub hanc hgood pre hd rest hldec hpre hhd hm2 hfr

theorem fmdst_good (rid : Nat) (nm0 : String) (a0 : List (String × String))
    (cs0 : NForest) (fuel : Nat) (sub : NTree) (mds : ℚ) (st st' : St)
    (hnd : (all_ids (NTree.elem rid nm0 a0 cs0)).Nodup)
    (hroot : only_root_html (NTree.elem rid nm0 a0 cs0))
    (hgood : good_marks (NTree.elem rid nm0 a0 cs0) st)
    (hrun : find_max_density_sum_tag fuel (NTree.elem rid nm0 a0 cs0) sub mds st =
      Except.ok st') :
    good_marks (NTree.elem rid nm0 a0 cs0) st' := by
  simp only [find_max_density_sum_tag] at hrun
  cases hs : search_tag fuel (NTree.elem rid nm0 a0 cs0) sub mds st with
  | none =>
      simp only [hs] at hrun
      cases hrun
  | some tid =>
    simp only [hs] at hrun
    cases hmk : st.mark tid with
    | none => simp [hmk, getAttr, except_error_bind] at hrun
    | some mk =>
      rw [hmk] at hrun
      simp only [getAttr, except_ok_bind] at hrun
      by_cases hmk1 : mk ≠ 1
      · rw [if_pos hmk1] at hrun
        cases hsub : subtree_of (NTree.elem rid nm0 a0 cs0) tid with
        | none => simp [hsub, getNode, except_error_bind] at hrun
        | some tsub =>
          rw [hsub] at hrun
          simp only [getNode, except_ok_bind] at hrun
          cases hanc : anc_ids (NTree.elem rid nm0 a0 cs0) tid with
          | none => simp [hanc, getNode, except_error_bind] at hrun
          | some anc =>
            rw [hanc] at hrun
            simp only [getNode, except_ok_bind] at hrun
            obtain ⟨pre, hd, rest, hldec, hpre, hhd, hm2, hfr⟩ :=
              walk_mark2_spec _ anc (set_mark 1 tsub st) st' hrun
            exact good_marks_after_target rid nm0 a0 cs0 hnd hroot st st' tid tsub anc
              hsub hanc hgood pre hd rest hldec hpre hhd hm2 hfr
      · rw [if_neg hmk1] at hrun
        injection hrun with hrun
        subst hrun
        exact hgood

mutual
theorem mark_content_good : ∀ (rid : Nat) (nm0 : String) (a0 : List (String × String))
    (cs0 : NForest) (fuel : Nat) (thr : ℚ) (t : NTree) (st st' : St),
    (all_ids (NTree.elem rid nm0 a0 cs0)).Nodup →
    only_root_html (NTree.elem rid nm0 a0 cs0) →
    good_marks (NTree.elem rid nm0 a0 cs0) st →
    mark_content fuel (NTree.elem rid nm0 a0 cs0) thr t st = Except.ok st' →
    good_marks (NTree.elem rid nm0 a0 cs0) st'
  | rid, nm0, a0, cs0, fuel, thr, .text i0 c0, st, st', _, _, _, he => by cases he
  | rid, nm0, a0, cs0, fuel, thr, .elem i nm a cs, st, st', hnd, hroot, hgood, he => by
      simp only [mark_content] at he
      cases htd : st.textDensity i with
      | none => simp [htd, getAttr, except_error_bind] at he
      | some td =>
        rw [htd] at he
        simp only [getAttr, except_ok_bind] at he
        cases hmds : st.maxDensitySum i with
        | none => simp [hmds, getAttr, except_error_bind] at he
        | some mds =>
          rw [hmds] at he
          simp only [getAttr, except_ok_bind] at he
          cases hmk : st.mark i with
          | none => simp [hmk, getAttr, except_error_bind] at he
          | some mk =>
            rw [hmk] at he
            simp only [getAttr, except_ok_bind] at he
            by_cases hcond : mk ≠ 1 ∧ thr > td
            · rw [if_pos hcond] at he
              cases hf : find_max_density_sum_tag fuel (NTree.elem rid nm0 a0 cs0)
                  (NTree.elem i nm a cs) mds st with
              | error e => rw [hf] at he; cases he
              | ok st1 =>
                rw [hf] at he
                simp only [except_ok_bind] at he
                have hg1 := fmdst_good rid nm0 a0 cs0 fuel (NTree.elem i nm a cs) mds st st1
                  hnd hroot hgood hf
                exact mark_content_forest_good rid nm0 a0 cs0 fuel thr cs st1 st'
                  hnd hroot hg1 he
            · rw [if_neg hcond] at he
              injection he with he
              subst he
              exact hgood
theorem mark_content_forest_good : ∀ (rid : Nat) (nm0 : String)
    (a0 : List (String × String)) (cs0 : NForest) (fuel : Nat) (thr : ℚ)
    (f : NForest) (st st' : St),
    (all_ids (NTree.elem rid nm0 a0 cs0)).Nodup →
    only_root_html (NTree.elem rid nm0 a0 cs0) →
    good_marks (NTree.elem rid nm0 a0 cs0) st →
    mark_content_forest fuel (NTree.elem rid nm0 a0 cs0) thr f st = Except.ok st' →
    good_marks (NTree.elem rid nm0 a0 cs0) st'
  | rid, nm0, a0, cs0, fuel, thr, .nil, st, st', _, _, hgood, he => by
      simp only [mark_content_forest] at he
      injection he with he
      subst he
      exact hgood
  | rid, nm0, a0, cs0, fuel, thr, .cons t ts, st, st', hnd, hroot, hgood, he => by
      simp only [mark_content_forest] at he
      cases hh : mark_content fuel (NTree.elem rid nm0 a0 cs0) thr t st with
      | error e => rw [hh] at he; cases he
      | ok st1 =>
        rw [hh] at he
        simp only [except_ok_bind] at he
        have hg1 := mark_content_good rid nm0 a0 cs0 fuel thr t st st1 hnd hroot hgood hh
        exact mark_content_forest_good rid nm0 a0 cs0 fuel thr ts st1 st' hnd hroot hg1 he
end

/-- After set_mark 0 from a state with no marks at all, no node is marked
    1, so the invariant holds vacuously. -/
theorem good_marks_after_reset (doc bsub : NTree) (st0 : St)
    (hfresh : ∀ i, st0.mark i = none) :
    good_marks doc (set_mark 0 bsub st0) := by
  intro i l hm1 _
  rw [set_mark_mark] at hm1
  by_cases hmem : i ∈ elem_ids bsub
  · rw [if_pos hmem] at hm1
    injection hm1 with hm1
    cases hm1
  · rw [if_neg hmem, hfresh i] at hm1
    cases hm1

/-- C6: after the full selection phase — marks reset to 0, get_threshold,
    then mark_content — on a document whose only html-named node is the
    root, with distinct node ids and starting from a state with no marks:
    every node marked 1 has every strict ancestor up to but excluding the
    html root marked 2 or 1, so no included node is orphaned.  Every
    1-marking happens through set_mark on a located subtree followed by a
    walk that sets every non-root ancestor to 2; marks are only ever
    overwritten by 1 or 2 afterwards. -/
theorem c6_ancestor_consistency (fuel : Nat) (rid : Nat) (nm0 : String)
    (a0 : List (String × String)) (cs0 : NForest) (bodyId : Nat) (maxds : ℚ)
    (st0 st' : St) (thr : ℚ)
    (hnd : (all_ids (NTree.elem rid nm0 a0 cs0)).Nodup)
    (hroot : only_root_html (NTree.elem rid nm0 a0 cs0))
    (hfresh : ∀ i, st0.mark i = none)
    (hrun : selection_phase fuel (NTree.elem rid nm0 a0 cs0) bodyId maxds st0 =
      Except.ok (st', thr)) :
    ∀ i l, st'.mark i = some 1 → anc_ids (NTree.elem rid nm0 a0 cs0) i = some l →
      ∀ a ∈ l, html_name_b (NTree.elem rid nm0 a0 cs0) a = false →
        st'.mark a = some 1 ∨ st'.mark a = some 2 := by
  have hmain : good_marks (NTree.elem rid nm0 a0 cs0) st' := by
    simp only [selection_phase] at hrun
    cases hb : subtree_of (NTree.elem rid nm0 a0 cs0) bodyId with
    | none => simp [hb, getNode, except_error_bind] at hrun
    | some bsub =>
      rw [hb] at hrun
      simp only [getNode, except_ok_bind] at hrun
      cases hgt : get_threshold fuel (NTree.elem rid nm0 a0 cs0) bsub maxds
          (set_mark 0 bsub st0) with
      | error e => rw [hgt] at hrun; cases hrun
      | ok p =>
        rw [hgt] at hrun
        simp only [except_ok_bind] at hrun
        cases hmc : mark_content fuel (NTree.elem rid nm0 a0 cs0) p.2 bsub p.1 with
        | error e => rw [hmc] at hrun; cases hrun
        | ok st2 =>
          rw [hmc] at hrun
          simp only [except_ok_bind] at hrun
          injection hrun with hrun
          have hst : st2 = st' := congrArg Prod.fst hrun
          subst hst
          have hg0 := good_marks_after_reset (NTree.elem rid nm0 a0 cs0) bsub st0 hfresh
          have hg1 := get_threshold_good rid nm0 a0 cs0 fuel bsub maxds
            (set_mark 0 bsub st0) p.1 p.2 hnd hroot hg0 (by rw [hgt])
          exact mark_content_good rid nm0 a0 cs0 fuel p.2 bsub p.1 st2 hnd hroot hg1 hmc
  exact hmain

/-- Witness for C6 on the concrete document: the phase succeeds with
    threshold 3, marks the body subtree (body and div get mark 1), and the
    ancestor-consistency conclusion follows from the theorem. -/
theorem c6_ancestor_consistency_witness :
    (all_ids c6_doc).Nodup ∧ only_root_html c6_doc ∧
    selection_phase 10 c6_doc 1 5 c6_st = Except.ok (c6_final, 3) ∧
    c6_final.mark 2 = some 1 ∧
    (∀ i l, c6_final.mark i = some 1 → anc_ids c6_doc i = some l →
      ∀ a ∈ l, html_name_b c6_doc a = false →
        c6_final.mark a = some 1 ∨ c6_final.mark a = some 2) :=
  ⟨by decide, by unfold only_root_html; decide, rfl, rfl,
   c6_ancestor_consistency 10 0 ("html") []
     (.cons (.elem 1 ("body") [] (.cons (.elem 2 ("div") [] .nil) .nil)) .nil)
     1 5 c6_st c6_final 3 (by decide) (by unfold only_root_html; decide) (fun i => rfl) rfl⟩
